import Mathlib

/-!
# Verification of the object/string utility library

Shallow embedding of the repository's JavaScript/TypeScript utility
functions over an explicit value type `JVal` (JSON-like JavaScript values:
primitives, arrays, string-keyed objects), together with proofs about the
embedded operations.

Modelling boundary (standard for a shallow embedding of JS plain data):
values carry no prototype chain, no getters/setters, no Symbol keys and no
function values; arrays hold only their indexed elements (expando
properties on arrays are not modelled); numbers are modelled as integers
(no claim under verification depends on floating-point behaviour).
The modules are ES modules, hence strict mode: assigning a property on a
primitive value, or reading a property of `null`/`undefined`, throws a
`TypeError`; fallible operations are therefore modelled with `Option`,
`none` standing for a thrown `TypeError`.
-/

/-- A JavaScript plain-data value: `null`, `undefined`, booleans, numbers
(modelled as integers), strings, arrays and string-keyed objects
(association lists, in insertion order, as JS objects preserve
string-key insertion order). -/
inductive JVal where
  | vNull : JVal
  | vUndef : JVal
  | vBool (b : Bool) : JVal
  | vNum (n : Int) : JVal
  | vStr (s : String) : JVal
  | vArr (elems : List JVal) : JVal
  | vObj (fields : List (String × JVal)) : JVal

open JVal

/-- Digit list of `n` in base 10, most significant first, with explicit
recursion fuel so that the definition evaluates by kernel reduction.
Fuel above `n` is always sufficient (`natDigitsGo_congr`). -/
def natDigitsGo : Nat → Nat → List Char
  | 0, _ => []
  | fuel + 1, n =>
    if n < 10 then [Char.ofNat (48 + n)]
    else natDigitsGo fuel (n / 10) ++ [Char.ofNat (48 + n % 10)]

/-- Digit list of `n` in base 10, most significant first. -/
def natDigits (n : Nat) : List Char :=
  natDigitsGo (n + 1) n

lemma natDigitsGo_congr :
    ∀ f₁ f₂ n, n < f₁ → n < f₂ → natDigitsGo f₁ n = natDigitsGo f₂ n := by
  intro f₁
  induction f₁ with
  | zero => omega
  | succ a ih =>
    intro f₂ n h₁ h₂
    cases f₂ with
    | zero => omega
    | succ b =>
      simp only [natDigitsGo]
      split
      · rfl
      · rw [ih b (n / 10) (by omega) (by omega)]

/-- The recurrence satisfied by `natDigits`. -/
lemma natDigits_eq (n : Nat) :
    natDigits n =
      if n < 10 then [Char.ofNat (48 + n)]
      else natDigits (n / 10) ++ [Char.ofNat (48 + n % 10)] := by
  show natDigitsGo (n + 1) n = _
  simp only [natDigitsGo]
  split
  · rfl
  · rw [natDigitsGo_congr n (n / 10 + 1) (n / 10) (by omega) (by omega)]
    rfl

/-- Canonical decimal rendering of a natural number, as JavaScript renders
array indices as property keys (`String(i)` for an integer index). -/
def natToKey (n : Nat) : String :=
  String.mk (natDigits n)

/-- Parse a decimal digit character. -/
def decDigit? (c : Char) : Option Nat :=
  if 48 ≤ c.toNat ∧ c.toNat ≤ 57 then some (c.toNat - 48) else none

/-- Parse a list of decimal digit characters (most significant first),
accumulating into `acc`; `none` if any character is not a digit. -/
def parseDecAux : Nat → List Char → Option Nat
  | acc, [] => some acc
  | acc, c :: cs =>
    match decDigit? c with
    | some d => parseDecAux (acc * 10 + d) cs
    | none => none

/-- Parse a nonempty all-digit string as a natural number. -/
def parseDec (s : String) : Option Nat :=
  match s.data with
  | [] => none
  | cs => parseDecAux 0 cs

/-- A string is a canonical JavaScript array-index key iff it is the
canonical decimal rendering of some natural number (JS: `String(i) === k`).
Returns that number. -/
def toIndex (k : String) : Option Nat :=
  match parseDec k with
  | some i => if natToKey i = k then some i else none
  | none => none

lemma natDigits_ne_nil (n : Nat) : natDigits n ≠ [] := by
  rw [natDigits_eq]
  split <;> simp

lemma parseDecAux_append (acc : Nat) (l₁ l₂ : List Char) :
    parseDecAux acc (l₁ ++ l₂) =
      (parseDecAux acc l₁).bind (fun a => parseDecAux a l₂) := by
  induction l₁ generalizing acc with
  | nil => simp [parseDecAux]
  | cons c cs ih =>
    simp only [List.cons_append, parseDecAux]
    cases decDigit? c <;> simp [ih]

lemma decDigit?_ofNat (d : Nat) (h : d < 10) :
    decDigit? (Char.ofNat (48 + d)) = some d := by
  interval_cases d <;> rfl

lemma parseDecAux_natDigits (n : Nat) :
    ∀ acc, parseDecAux acc (natDigits n) =
      some (acc * 10 ^ (natDigits n).length + n) := by
  induction n using Nat.strong_induction_on with
  | _ n ih =>
    intro acc
    rw [natDigits_eq]
    by_cases h : n < 10
    · simp only [if_pos h, parseDecAux, decDigit?_ofNat n h, List.length_cons,
        List.length_nil, pow_one, zero_add]
    · have hd : n / 10 < n := Nat.div_lt_self (by omega) (by omega)
      simp only [if_neg h, parseDecAux_append, ih (n / 10) hd acc, Option.bind_some,
        parseDecAux, decDigit?_ofNat (n % 10) (Nat.mod_lt n (by omega)),
        List.length_append, List.length_cons, List.length_nil]
      rw [pow_succ, ← Nat.mul_assoc]
      simp only [Option.some_bind, Option.some.injEq]
      rw [Nat.add_mul]
      generalize acc * 10 ^ (natDigits (n / 10)).length = t
      omega

lemma parseDec_natToKey (n : Nat) : parseDec (natToKey n) = some n := by
  have hne := natDigits_ne_nil n
  have h := parseDecAux_natDigits n 0
  simp only [natToKey, parseDec]
  cases hd : natDigits n with
  | nil => exact absurd hd hne
  | cons c cs =>
    rw [hd] at h
    simpa using h

lemma toIndex_natToKey (n : Nat) : toIndex (natToKey n) = some n := by
  simp [toIndex, parseDec_natToKey]

lemma natToKey_injective : Function.Injective natToKey := by
  intro a b h
  have := parseDec_natToKey a
  rw [h, parseDec_natToKey b] at this
  exact (Option.some_injective _ this).symm

lemma natToKey_ne_length (n : Nat) : natToKey n ≠ "length" := by
  intro h
  have := parseDec_natToKey n
  rw [h] at this
  simp [parseDec, parseDecAux, decDigit?] at this



/-- JavaScript truthiness: `null`, `undefined`, `false`, `0` and `""` are
falsy; every other value (in particular every object and array) is truthy. -/
def truthy : JVal → Bool
  | vNull => false
  | vUndef => false
  | vBool b => b
  | vNum n => n != 0
  | vStr s => s != ""
  | vArr _ => true
  | vObj _ => true

/-- `typeof v === 'object'` in JavaScript: true for objects, arrays and
(famously) `null`; false for all other primitives. -/
def isTypeofObject : JVal → Bool
  | vNull => true
  | vArr _ => true
  | vObj _ => true
  | _ => false

/-- `v === null`. -/
def isNullV : JVal → Bool
  | vNull => true
  | _ => false

/-- `v === null || v === undefined` (bases on which property access throws). -/
def isNullish : JVal → Bool
  | vNull => true
  | vUndef => true
  | _ => false

/-- JavaScript strict equality `===` restricted to our value space.
Two primitives are `===` iff they are the same kind with the same value
(our numbers are integers, so the `NaN` corner does not arise).
Objects and arrays are compared by reference; tree values carry no
object identity, and two separately materialized trees never share a
reference, so `===` on non-primitives is modelled as `false`. -/
def jsStrictEq : JVal → JVal → Bool
  | vNull, vNull => true
  | vUndef, vUndef => true
  | vBool a, vBool b => a == b
  | vNum a, vNum b => a == b
  | vStr a, vStr b => a == b
  | _, _ => false

/-- First-occurrence lookup in an object's field list (a JS object has
unique keys, so this is plain key lookup on well-formed values). -/
def lookupFirst : List (String × JVal) → String → Option JVal
  | [], _ => none
  | (k', v') :: rest, k => if k' = k then some v' else lookupFirst rest k

/-- JS `obj[k] = v` on an object's field list: an existing key keeps its
position and is overwritten, a new key is appended (JS insertion order). -/
def setField : List (String × JVal) → String → JVal → List (String × JVal)
  | [], k, v => [(k, v)]
  | (k', v') :: rest, k, v =>
    if k' = k then (k, v) :: rest else (k', v') :: setField rest k v

/-- The own enumerable string-keyed properties of a value, in order: an
object's fields, an array's or string's indexed elements (`{...a}` spread
and `for (k in a)` enumerate exactly these for plain data; an array's
`length` is an own property but not enumerable). Primitives have none. -/
def ownPairs : JVal → List (String × JVal)
  | vObj fields => fields
  | vArr xs => (xs.enum.map fun p => (natToKey p.1, p.2))
  | vStr s => (s.data.enum.map fun p => (natToKey p.1, vStr (String.mk [p.2])))
  | _ => []

/-- `Object.keys` (own enumerable keys, in order). -/
def ownKeys (v : JVal) : List String := (ownPairs v).map Prod.fst

/-- JavaScript property read `base[k]` for a non-nullish base: object key
lookup; array element / `length`; string character / `length`; `undefined`
for everything else (primitives have no own properties; the prototype
chain is not modelled). Reading on `null`/`undefined` throws in JS and is
guarded separately by callers. -/
def getProp : JVal → String → JVal
  | vObj fields, k => (lookupFirst fields k).getD vUndef
  | vArr xs, k =>
    if k = "length" then vNum xs.length
    else match toIndex k with
      | some i => xs.getD i vUndef
      | none => vUndef
  | vStr s, k =>
    if k = "length" then vNum s.length
    else match toIndex k with
      | some i => match s.data.get? i with
        | some c => vStr (String.mk [c])
        | none => vUndef
      | none => vUndef
  | _, _ => vUndef

/-- `base.hasOwnProperty(k)` for plain data (arrays and strings own their
indices and `length`; other primitives own nothing). -/
def hasOwn : JVal → String → Bool
  | vObj fields, k => (lookupFirst fields k).isSome
  | vArr xs, k =>
    k = "length" ||
      (match toIndex k with
       | some i => decide (i < xs.length)
       | none => false)
  | vStr s, k =>
    k = "length" ||
      (match toIndex k with
       | some i => decide (i < s.length)
       | none => false)
  | _, _ => false

/-- Write an array element at a canonical index key: in-bounds indices are
overwritten, the index equal to `length` appends, larger indices pad with
holes (which read back as `undefined`). Writing `length` resizes (grows
with holes or truncates); a negative or fractional `length` throws a
`RangeError` in JS, modelled as `none`. Non-index keys would create a
non-indexed (expando) own property in JS; such properties are outside
this embedding's value space, so the write is dropped (`some` with the
array unchanged) — no claim under verification exercises this corner. -/
def arraySet (xs : List JVal) (k : String) (v : JVal) : Option (List JVal) :=
  if k = "length" then
    match v with
    | vNum n =>
      if 0 ≤ n then
        some ((xs.take n.toNat) ++ List.replicate (n.toNat - xs.length) vUndef)
      else none
    | _ => none
  else
    match toIndex k with
    | some i =>
      if i < xs.length then some (xs.set i v)
      else some (xs ++ List.replicate (i - xs.length) vUndef ++ [v])
    | none => some xs

/-- JavaScript property assignment `base[k] = v` in strict mode (the
repository consists of ES modules, which are always strict): objects and
arrays are updated; assigning on any primitive (including `null` and
`undefined`) throws a `TypeError`, modelled as `none`. -/
def assignProp : JVal → String → JVal → Option JVal
  | vObj fields, k, v => some (vObj (setField fields k v))
  | vArr xs, k, v => (arraySet xs k v).map vArr
  | _, _, _ => none

mutual
/-- A computable structural size for `JVal` (the derived `SizeOf` instance
of a nested inductive has no executable code), used as recursion fuel. -/
def JVal.size : JVal → Nat
  | vNull => 1
  | vUndef => 1
  | vBool _ => 1
  | vNum _ => 1
  | vStr _ => 1
  | vArr xs => 1 + sizeList xs
  | vObj fields => 1 + sizeFields fields

/-- Total size of a list of values. -/
def sizeList : List JVal → Nat
  | [] => 0
  | x :: xs => 1 + JVal.size x + sizeList xs

/-- Total size of a field list. -/
def sizeFields : List (String × JVal) → Nat
  | [] => 0
  | f :: fs => 1 + JVal.size f.2 + sizeFields fs
end

lemma size_lt_of_mem_fields :
    ∀ {fields : List (String × JVal)} {k : String} {v : JVal},
      (k, v) ∈ fields → JVal.size v < JVal.size (vObj fields) := by
  intro fields
  induction fields with
  | nil => intro k v h; simp at h
  | cons f rest ih =>
    intro k v h
    rcases List.mem_cons.mp h with h | h
    · subst h
      simp only [JVal.size, sizeFields]
      omega
    · have := ih h
      simp only [JVal.size, sizeFields] at *
      omega

lemma size_lt_of_mem_list :
    ∀ {xs : List JVal} {x : JVal}, x ∈ xs → JVal.size x < JVal.size (vArr xs) := by
  intro xs
  induction xs with
  | nil => intro x h; simp at h
  | cons y rest ih =>
    intro x h
    rcases List.mem_cons.mp h with h | h
    · subst h
      simp only [JVal.size, sizeList]
      omega
    · have := ih h
      simp only [JVal.size, sizeList] at *
      omega

lemma size_lt_of_mem_ownPairs {src : JVal} {k : String} {sv : JVal}
    (hmem : (k, sv) ∈ ownPairs src) (hobj : isTypeofObject sv = true) :
    JVal.size sv < JVal.size src := by
  cases src with
  | vObj fields => exact size_lt_of_mem_fields hmem
  | vArr xs =>
    simp only [ownPairs, List.mem_map] at hmem
    obtain ⟨⟨i, x⟩, hx, heq⟩ := hmem
    have hxx : x ∈ xs := List.getElem?_mem (List.mem_enum_iff_getElem?.mp hx)
    simp only [Prod.mk.injEq] at heq
    obtain ⟨-, hsv⟩ := heq
    subst hsv
    exact size_lt_of_mem_list hxx
  | vStr s =>
    simp only [ownPairs, List.mem_map] at hmem
    obtain ⟨⟨i, c⟩, -, heq⟩ := hmem
    simp only [Prod.mk.injEq] at heq
    obtain ⟨-, hsv⟩ := heq
    subst hsv
    simp [isTypeofObject] at hobj
  | vNull => simp [ownPairs] at hmem
  | vUndef => simp [ownPairs] at hmem
  | vBool b => simp [ownPairs] at hmem
  | vNum n => simp [ownPairs] at hmem

/-- `deepMerge(target, source)` from `src/utils/object/index.ts`, with
explicit recursion fuel so that the definition evaluates by kernel
reduction; fuel above `JVal.size source` is always sufficient
(`deepMergeGo_congr`), and `deepMerge` below supplies it.
`const output = { ...target }` then, for each own enumerable key of
`source`: if `source[key]` is a truthy value of `typeof 'object'` and
`target` has the key with a truthy `typeof 'object'` value, recursively
merge the two values; otherwise assign `source[key]` wholesale. The pair
list snapshot of `source` equals the per-iteration reads `source[key]`
because `source` is never written during the loop. Always returns an
object literal. -/
def deepMergeGo : Nat → JVal → JVal → JVal
  | 0, _, _ => vObj []
  | fuel + 1, target, source =>
    vObj ((ownPairs source).foldl
      (fun out kv =>
        if truthy kv.2 && isTypeofObject kv.2 && hasOwn target kv.1 &&
            truthy (getProp target kv.1) && isTypeofObject (getProp target kv.1)
        then setField out kv.1 (deepMergeGo fuel (getProp target kv.1) kv.2)
        else setField out kv.1 kv.2)
      (ownPairs target))

/-- `deepMerge(target, source)`: the fuel `JVal.size source + 1` always
suffices, so this satisfies the recurrence `deepMerge_eq` below, which is
the shape of the JS function. -/
def deepMerge (target source : JVal) : JVal :=
  deepMergeGo (JVal.size source + 1) target source

lemma deepMergeGo_congr :
    ∀ f₁ f₂ t s, JVal.size s < f₁ → JVal.size s < f₂ →
      deepMergeGo f₁ t s = deepMergeGo f₂ t s := by
  intro f₁
  induction f₁ with
  | zero => omega
  | succ a ih =>
    intro f₂ t s h₁ h₂
    cases f₂ with
    | zero => omega
    | succ b =>
      simp only [deepMergeGo]
      congr 1
      apply List.foldl_ext
      intro out kv hkv
      split
      · rename_i hcond
        simp only [Bool.and_eq_true] at hcond
        have hlt : JVal.size kv.2 < JVal.size s :=
          size_lt_of_mem_ownPairs hkv hcond.1.1.1.2
        rw [ih b (getProp t kv.1) kv.2 (by omega) (by omega)]
      · rfl

/-- The recurrence satisfied by `deepMerge` (the loop of the JS source). -/
lemma deepMerge_eq (target source : JVal) :
    deepMerge target source =
      vObj ((ownPairs source).foldl
        (fun out kv =>
          if truthy kv.2 && isTypeofObject kv.2 && hasOwn target kv.1 &&
              truthy (getProp target kv.1) && isTypeofObject (getProp target kv.1)
          then setField out kv.1 (deepMerge (getProp target kv.1) kv.2)
          else setField out kv.1 kv.2)
        (ownPairs target)) := by
  show deepMergeGo (JVal.size source + 1) target source = _
  simp only [deepMergeGo]
  congr 1
  apply List.foldl_ext
  intro out kv hkv
  split
  · rename_i hcond
    simp only [Bool.and_eq_true] at hcond
    have hlt : JVal.size kv.2 < JVal.size source :=
      size_lt_of_mem_ownPairs hkv hcond.1.1.1.2
    rw [deepMergeGo_congr (JVal.size source) (JVal.size kv.2 + 1) (getProp target kv.1) kv.2
      (by omega) (by omega)]
    rfl
  · rfl

lemma lookupFirst_of_mem_keys {fields : List (String × JVal)} {k : String}
    (hk : k ∈ fields.map Prod.fst) :
    ∃ v, lookupFirst fields k = some v ∧ (k, v) ∈ fields := by
  induction fields with
  | nil => simp at hk
  | cons p rest ih =>
    obtain ⟨k', v'⟩ := p
    by_cases he : k' = k
    · subst he
      exact ⟨v', by simp [lookupFirst], List.mem_cons_self _ _⟩
    · simp only [List.map_cons, List.mem_cons] at hk
      rcases hk with hk | hk
      · exact absurd hk.symm he
      · obtain ⟨v, hv, hmem⟩ := ih hk
        exact ⟨v, by simp [lookupFirst, he, hv], List.mem_cons_of_mem _ hmem⟩

lemma mem_ownKeys_arr {xs : List JVal} {k : String}
    (hk : k ∈ ownKeys (vArr xs)) :
    ∃ i x, k = natToKey i ∧ xs[i]? = some x := by
  simp only [ownKeys, ownPairs, List.map_map, List.mem_map] at hk
  obtain ⟨⟨i, x⟩, hx, heq⟩ := hk
  exact ⟨i, x, heq.symm, List.mem_enum_iff_getElem?.mp hx⟩

lemma getProp_size_lt {a : JVal} {k : String}
    (hk : k ∈ ownKeys a) (hobj : isTypeofObject a = true)
    (hnn : isNullV a = false) :
    JVal.size (getProp a k) < JVal.size a := by
  cases a with
  | vObj fields =>
    obtain ⟨v, hv, hmem⟩ := lookupFirst_of_mem_keys (by simpa [ownKeys, ownPairs] using hk)
    have h1 : JVal.size v < JVal.size (vObj fields) := size_lt_of_mem_fields hmem
    simp only [getProp, hv, Option.getD_some]
    exact h1
  | vArr xs =>
    obtain ⟨i, x, hki, hix⟩ := mem_ownKeys_arr hk
    subst hki
    have hmem : x ∈ xs := List.getElem?_mem hix
    have h1 : JVal.size x < JVal.size (vArr xs) := size_lt_of_mem_list hmem
    have hgd : xs.getD i vUndef = x := by
      simp [List.getD, hix]
    simp only [getProp, if_neg (natToKey_ne_length i), toIndex_natToKey, hgd]
    exact h1
  | vNull => simp [isNullV] at hnn
  | vUndef => simp [isTypeofObject] at hobj
  | vBool b => simp [isTypeofObject] at hobj
  | vNum n => simp [isTypeofObject] at hobj
  | vStr s => simp [isTypeofObject] at hobj

lemma list_all_congr {α : Type} (l : List α) (f g : α → Bool)
    (h : ∀ x ∈ l, f x = g x) : l.all f = l.all g := by
  induction l with
  | nil => rfl
  | cons x xs ih =>
    simp only [List.all_cons]
    rw [h x (List.mem_cons_self x xs), ih fun y hy => h y (List.mem_cons_of_mem x hy)]

/-- `deepEqual(obj1, obj2)` from `src/utils/object/index.ts`, with
explicit recursion fuel so that the definition evaluates by kernel
reduction; fuel above `JVal.size a` is always sufficient (`deepEqualGo_congr`),
and `deepEqual` below supplies it. The function: `===` short-circuit; then
`false` unless both sides are non-null values of `typeof 'object'`; then
the two `Object.keys` lists must have the same length and every key of
`obj1` must be a key of `obj2` with recursively deep-equal values. -/
def deepEqualGo : Nat → JVal → JVal → Bool
  | 0, _, _ => false
  | fuel + 1, a, b =>
    if jsStrictEq a b then true
    else if !isTypeofObject a || isNullV a || !isTypeofObject b || isNullV b
    then false
    else
      if (ownKeys a).length ≠ (ownKeys b).length then false
      else
        (ownKeys a).all fun k =>
          (ownKeys b).contains k && deepEqualGo fuel (getProp a k) (getProp b k)

/-- `deepEqual(obj1, obj2)`: the fuel `JVal.size a + 1` always suffices, so
this satisfies the recurrence `deepEqual_eq` below, which is the shape of
the JS function. -/
def deepEqual (a b : JVal) : Bool :=
  deepEqualGo (JVal.size a + 1) a b

lemma deepEqualGo_congr :
    ∀ f₁ f₂ a b, JVal.size a < f₁ → JVal.size a < f₂ →
      deepEqualGo f₁ a b = deepEqualGo f₂ a b := by
  intro f₁
  induction f₁ with
  | zero => omega
  | succ m ih =>
    intro f₂ a b h₁ h₂
    cases f₂ with
    | zero => omega
    | succ n =>
      simp only [deepEqualGo]
      split
      · rfl
      · split
        · rfl
        · split
          · rfl
          · rename_i hguard _
            simp only [Bool.or_eq_true, Bool.not_eq_true'] at hguard
            push_neg at hguard
            obtain ⟨⟨⟨hta, hna⟩, -⟩, -⟩ := hguard
            apply list_all_congr
            intro k hk
            have hlt : JVal.size (getProp a k) < JVal.size a :=
              getProp_size_lt hk (by simpa using hta) (by simpa using hna)
            rw [ih n (getProp a k) (getProp b k) (by omega) (by omega)]

/-- The recurrence satisfied by `deepEqual` (the shape of the JS source). -/
lemma deepEqual_eq (a b : JVal) :
    deepEqual a b =
      (if jsStrictEq a b then true
       else if !isTypeofObject a || isNullV a || !isTypeofObject b || isNullV b
       then false
       else
         if (ownKeys a).length ≠ (ownKeys b).length then false
         else
           (ownKeys a).all fun k =>
             (ownKeys b).contains k && deepEqual (getProp a k) (getProp b k)) := by
  show deepEqualGo (JVal.size a + 1) a b = _
  simp only [deepEqualGo]
  split
  · rfl
  · split
    · rfl
    · split
      · rfl
      · rename_i hguard _
        simp only [Bool.or_eq_true, Bool.not_eq_true'] at hguard
        push_neg at hguard
        obtain ⟨⟨⟨hta, hna⟩, -⟩, -⟩ := hguard
        apply list_all_congr
        intro k hk
        have hlt : JVal.size (getProp a k) < JVal.size a :=
          getProp_size_lt hk (by simpa using hta) (by simpa using hna)
        rw [deepEqualGo_congr (JVal.size a) (JVal.size (getProp a k) + 1)
          (getProp a k) (getProp b k) (by omega) (by omega)]
        rfl

/-- `path.split('.')` with a one-character string separator: splits at
every `'.'`, keeping empty pieces (`""` splits to `[""]`, `"a..b"` to
`["a", "", "b"]`), as JS `String.prototype.split` does with a string
separator. -/
def splitDot : List Char → List (List Char)
  | [] => [[]]
  | c :: cs =>
    if c = '.' then [] :: splitDot cs
    else
      match splitDot cs with
      | [] => [[c]]
      | w :: ws => (c :: w) :: ws

/-- The key segments of a dot-separated path. -/
def pathParts (path : String) : List String :=
  (splitDot path.data).map String.mk

lemma splitDot_ne_nil (cs : List Char) : splitDot cs ≠ [] := by
  cases cs with
  | nil => simp [splitDot]
  | cons c cs =>
    simp only [splitDot]
    split
    · simp
    · split <;> simp

lemma pathParts_ne_nil (path : String) : pathParts path ≠ [] := by
  simp only [pathParts, ne_eq, List.map_eq_nil_iff]
  exact splitDot_ne_nil path.data

/-- The reduction step of `getNestedValue`:
`(acc, part) => acc && acc[part]` — a falsy accumulator short-circuits
(returning itself), a truthy one is indexed. -/
def getStep (acc : JVal) (part : String) : JVal :=
  if truthy acc then getProp acc part else acc

/-- Walk a list of key segments, as the `reduce` in `getNestedValue`. -/
def getNestedParts (obj : JVal) (parts : List String) : JVal :=
  parts.foldl getStep obj

/-- `getNestedValue(obj, path)` from `src/utils/object/index.ts`:
`path.split('.').reduce((acc, part) => acc && acc[part], obj)`. -/
def getNestedValue (obj : JVal) (path : String) : JVal :=
  getNestedParts obj (pathParts path)

/-- The loop of `setNestedValue(obj, path, value)` from
`src/utils/object/index.ts`, written over the remaining segments.
JS mutates `obj` in place walking an alias `current`; functionally, the
updated child is written back at each level, which coincides with the
in-place mutation for object/array nodes. Per iteration on a non-final
segment the source runs
`current[parts[i]] = current[parts[i]] || {}; current = current[parts[i]];`
— reading on a nullish `current` or assigning on any primitive `current`
throws a `TypeError` (strict mode), modelled as `none` (in JS, mutations
already performed on `obj` survive such a throw; the partially-mutated
state is not modelled). On the final segment: `current[parts[i]] = value`. -/
def setGo : JVal → List String → JVal → Option JVal
  | cur, [], _ => some cur
  | cur, [p], v => assignProp cur p v
  | cur, p :: q :: rest, v =>
    if isNullish cur then none
    else
      let c0 := getProp cur p
      let child := if truthy c0 then c0 else vObj []
      match assignProp cur p child with
      | none => none
      | some cur1 =>
        match setGo child (q :: rest) v with
        | none => none
        | some child1 => assignProp cur1 p child1

/-- `setNestedValue(obj, path, value)`; `some` of the resulting root
object, `none` when the call throws a `TypeError`. -/
def setNestedValue (obj : JVal) (path : String) (v : JVal) : Option JVal :=
  setGo obj (pathParts path) v

example : getNestedValue (vObj [("a", vObj [("b", vNum 1)])]) "a.b" = vNum 1 := by rfl
example : getNestedValue (vObj [("a", vNum 0)]) "a.b" = vNum 0 := by rfl
example : getNestedValue (vObj [("a", vObj [("b", vNum 1)])]) "a.x.y" = vUndef := by rfl
example : setNestedValue (vObj []) "a.b" (vNum 1) =
    some (vObj [("a", vObj [("b", vNum 1)])]) := by rfl
example : setNestedValue (vObj [("a", vNum 5)]) "a.b" (vNum 1) = none := by rfl
example : deepMerge (vObj [("a", vObj [("b", vNum 1)])]) (vObj [("a", vObj [("c", vNum 2)])]) =
    vObj [("a", vObj [("b", vNum 1), ("c", vNum 2)])] := by rfl
example : deepEqual (vObj [("a", vNum 1)]) (vObj [("a", vNum 1)]) = true := by rfl
example : deepEqual (vArr [vNum 1]) (vObj [("0", vNum 1)]) = true := by rfl

/-- A character matched by `\s` in a JavaScript regex (ECMA-262
WhiteSpace and LineTerminator): tab, LF, VT, FF, CR, space, NBSP, and
the Unicode space separators U+1680, U+2000..U+200A, U+2028 (LS),
U+2029 (PS), U+202F, U+205F, U+3000, plus U+FEFF (ZWNBSP). -/
def isJsWhitespace (c : Char) : Bool :=
  c.toNat = 0x09 || c.toNat = 0x0A || c.toNat = 0x0B || c.toNat = 0x0C ||
    c.toNat = 0x0D || c.toNat = 0x20 || c.toNat = 0xA0 || c.toNat = 0x1680 ||
    (0x2000 ≤ c.toNat && c.toNat ≤ 0x200A) || c.toNat = 0x2028 ||
    c.toNat = 0x2029 || c.toNat = 0x202F || c.toNat = 0x205F ||
    c.toNat = 0x3000 || c.toNat = 0xFEFF

/-- A separator character of `splitIntoWords`'s regex `[\s_-]+`:
JS whitespace, underscore or hyphen. -/
def isSepChar (c : Char) : Bool := isJsWhitespace c || c = '_' || c = '-'

mutual
/-- `str.split(/[\s_-]+/)` from `src/utils/string/index.ts`
(`splitIntoWords`), over the character list: maximal separator runs split
the string; a leading or trailing run contributes an empty piece, interior
runs collapse (the `+`). `splitWord` is scanning inside a word (`acc`
holds the reversed word so far). -/
def splitWord : List Char → List Char → List (List Char)
  | [], acc => [acc.reverse]
  | c :: cs, acc =>
    if isSepChar c then acc.reverse :: splitSep cs
    else splitWord cs (c :: acc)

/-- Scanning inside a separator run (at least one separator consumed). -/
def splitSep : List Char → List (List Char)
  | [] => [[]]
  | c :: cs => if isSepChar c then splitSep cs else splitWord cs [c]
end

/-- `splitIntoWords(str)`: split on runs of whitespace/underscore/hyphen. -/
def splitIntoWords (s : String) : List String :=
  (splitWord s.data []).map String.mk

/-- `str.charAt(i)`: a one-character string, or `""` when out of range. -/
def charAt (s : String) (i : Nat) : String :=
  match s.data.get? i with
  | some c => String.mk [c]
  | none => ""

/-- `str.toUpperCase()` (character-wise case mapping; the embedding uses
Lean's ASCII `Char.toUpper`, which agrees with JS on ASCII input). -/
def jsToUpper (s : String) : String := String.mk (s.data.map Char.toUpper)

/-- `str.toLowerCase()` (ASCII, as `jsToUpper`). -/
def jsToLower (s : String) : String := String.mk (s.data.map Char.toLower)

/-- `str.slice(1)`: drop the first character. -/
def strSlice1 (s : String) : String := String.mk (s.data.drop 1)

/-- `arr.join(' ')`. -/
def joinSpace : List String → String
  | [] => ""
  | [w] => w
  | w :: ws => w ++ " " ++ joinSpace ws

/-- `toSentenceCase(str)` from `src/utils/string/index.ts`:
`words[0].charAt(0).toUpperCase() + words[0].slice(1).toLowerCase()
 + ' ' + words.slice(1).join(' ').toLowerCase()`
where `words = splitIntoWords(str)` (always nonempty, so `words[0]` is
its head). -/
def toSentenceCase (s : String) : String :=
  let words := splitIntoWords s
  jsToUpper (charAt (words.headD "") 0) ++ jsToLower (strSlice1 (words.headD "")) ++
    " " ++ jsToLower (joinSpace (words.drop 1))

example : toSentenceCase "hello world" = "Hello world" := by rfl
example : toSentenceCase "a\x0Cb" = "A b" := by rfl
example : toSentenceCase "a\x0Bb" = "A b" := by rfl
example : toSentenceCase "HELLO_WORLD" = "Hello world" := by rfl
example : toSentenceCase "hELLO" = "Hello " := by rfl

/-- Hex digit character of `r.toString(16)` for `r < 16` (lowercase). -/
def hexDigit (r : Fin 16) : Char :=
  if r.val < 10 then Char.ofNat (48 + r.val) else Char.ofNat (87 + r.val)

lemma uuidY_lt : ∀ r : Fin 16, (r.val &&& 3) ||| 8 < 16 := by decide

/-- The digit substituted for a template `'y'`: `(r & 0x3) | 0x8`. -/
def yDigit (r : Fin 16) : Char := hexDigit ⟨(r.val &&& 3) ||| 8, uuidY_lt r⟩

/-- The replacement loop of `generateUUID` from the timing/identifier
module: `template.replace(/[xy]/g, c => ...)` visits the template's
characters in order and replaces the `k`-th matched `'x'`/`'y'` using the
`k`-th draw of the random source. Each draw models
`(Math.random() * 16) | 0`, which is exactly a value in `0..15`, so the
random source is an arbitrary function `f : Nat → Fin 16`
(`const r = ...; const v = c === 'x' ? r : (r & 0x3) | 0x8;
 return v.toString(16);`). -/
def uuidGo (f : Nat → Fin 16) : List Char → Nat → List Char
  | [], _ => []
  | c :: cs, k =>
    if c = 'x' then hexDigit (f k) :: uuidGo f cs (k + 1)
    else if c = 'y' then yDigit (f k) :: uuidGo f cs (k + 1)
    else c :: uuidGo f cs k

/-- `generateUUID()`: replace `x`/`y` in the fixed v4-style template, with
`f` the sequence of outcomes of the random source. -/
def generateUUID (f : Nat → Fin 16) : String :=
  String.mk (uuidGo f ("xxxxxxxx-xxxx-4xxx-yxxx-xxxxxxxxxxxx".data) 0)

example : generateUUID (fun _ => ⟨0, by decide⟩) =
    "00000000-0000-4000-8000-000000000000" := by rfl

/-- An item of a regex character class: a literal character or a range
(`a-b` matches by code point, as JS does). -/
inductive CItem where
  | single (c : Char) : CItem
  | crange (lo hi : Char) : CItem

/-- An element of a quantifier-free regex: a character class (one char)
or a literal character (one char). -/
inductive RElem where
  | rClass (items : List CItem) : RElem
  | rChar (c : Char) : RElem

/-- Parse the inside of a regex character class, JS rules: the first
unescaped `]` closes the class; `a-b` with `b ≠ ']'` is a range; a `-`
that is first, last, or directly before the closing `]` is a literal.
Returns the items and the characters after the closing `]` (a class that
never closes consumes everything; the patterns built by the source from
its default configuration are well-formed, and negated classes / escapes
do not occur in them). -/
def parseClassItems : List Char → List CItem × List Char
  | [] => ([], [])
  | ']' :: rest => ([], rest)
  | a :: '-' :: b :: rest =>
    if b = ']' then ([CItem.single a, CItem.single '-'], rest)
    else
      let (items, r) := parseClassItems rest
      (CItem.crange a b :: items, r)
  | a :: rest =>
    let (items, r) := parseClassItems rest
    (CItem.single a :: items, r)

/-- Parse a quantifier-free pattern: classes delimited by `[`/`]`, all
other characters literal. Fuel above the pattern length always suffices. -/
def parsePatternGo : Nat → List Char → List RElem
  | 0, _ => []
  | _ + 1, [] => []
  | fuel + 1, '[' :: rest =>
    let (items, r) := parseClassItems rest
    RElem.rClass items :: parsePatternGo fuel r
  | fuel + 1, c :: rest => RElem.rChar c :: parsePatternGo fuel rest

/-- Parse a quantifier-free regex pattern string (as `new RegExp` compiles
the string `'[' + symbols + ']'` in `validatePassword`). -/
def parsePattern (l : List Char) : List RElem :=
  parsePatternGo (l.length + 1) l

/-- Does a character match a character class? -/
def classMatch (items : List CItem) (c : Char) : Bool :=
  items.any fun it =>
    match it with
    | CItem.single x => c = x
    | CItem.crange lo hi => lo ≤ c && c ≤ hi

/-- Does a character match one pattern element? -/
def elemMatch : RElem → Char → Bool
  | RElem.rClass items, c => classMatch items c
  | RElem.rChar x, c => c = x

/-- Does the pattern match a prefix of `cs` (each element consumes exactly
one character)? -/
def matchSeq : List RElem → List Char → Bool
  | [], _ => true
  | _ :: _, [] => false
  | e :: es, c :: cs => elemMatch e c && matchSeq es cs

/-- `regex.test(s)`: does the pattern match starting at any position? -/
def regexTest (pat : List RElem) : List Char → Bool
  | [] => matchSeq pat []
  | c :: cs => matchSeq pat (c :: cs) || regexTest pat cs

/-- The configuration record of `validatePassword` (all fields optional,
defaults applied by destructuring in the source). -/
structure PasswordValidationConfig where
  minLength : Option Nat := none
  maxLength : Option Nat := none
  requireLowercase : Option Bool := none
  requireUppercase : Option Bool := none
  requireNumeric : Option Bool := none
  requireSymbol : Option Bool := none
  symbols : Option String := none
  onlyLatin : Option Bool := none

/-- The default `symbols` string of `validatePassword`. -/
def defaultSymbols : String := "!@#$%^&*()-_+=<>?/[]"

/-- One character of the `onlyLatin` whitelist, per the source regex
`/[^a-zA-Z0-9!@#$%^&*()\-\_+=<>?/\[\] ]/` (the escaped `-`, `_`, `[`, `]`
are literals; the final character is a space). -/
def latinAllowedChar (c : Char) : Bool :=
  ('a' ≤ c && c ≤ 'z') || ('A' ≤ c && c ≤ 'Z') || ('0' ≤ c && c ≤ '9') ||
    "!@#$%^&*()-_+=<>?/[] ".data.contains c

/-- `validatePassword(password, config)` from the password module: length
bounds, then required character classes (`/[a-z]/`, `/[A-Z]/`, `/[0-9]/`
are containment of a character in the range), then the symbol regex built
at runtime as `new RegExp('[' + symbols + ']', 'g')` (the `g` flag does
not affect a single fresh `.test`), then the `onlyLatin` whitelist. -/
def validatePassword (password : String) (config : PasswordValidationConfig) : Bool :=
  let minLength := config.minLength.getD 8
  let maxLength := config.maxLength.getD 64
  let requireLowercase := config.requireLowercase.getD true
  let requireUppercase := config.requireUppercase.getD true
  let requireNumeric := config.requireNumeric.getD true
  let requireSymbol := config.requireSymbol.getD true
  let symbols := config.symbols.getD defaultSymbols
  let onlyLatin := config.onlyLatin.getD true
  if password.length < minLength || password.length > maxLength then false
  else if requireLowercase && !(password.data.any fun c => 'a' ≤ c && c ≤ 'z') then
    false
  else if requireUppercase && !(password.data.any fun c => 'A' ≤ c && c ≤ 'Z') then
    false
  else if requireNumeric && !(password.data.any fun c => '0' ≤ c && c ≤ '9') then
    false
  else if requireSymbol &&
      !(regexTest (parsePattern ('[' :: symbols.data ++ [']'])) password.data) then
    false
  else if onlyLatin && (password.data.any fun c => !latinAllowedChar c) then false
  else true

example : validatePassword "Aa1!aaa]" {} = false := by rfl
example : validatePassword "Aa1!aaaa" {} = false := by rfl
example : validatePassword "Aa1]aaaa" {} = true := by rfl
example : validatePassword "aa1!aaaa" {} = false := by rfl
example : validatePassword "Aa1(]aaa" {} = true := by rfl

/-- Is the value a mapping (a plain object)? -/
def isObjMap : JVal → Bool
  | vObj _ => true
  | _ => false

lemma lookupFirst_setField_self (fields : List (String × JVal)) (k : String) (v : JVal) :
    lookupFirst (setField fields k v) k = some v := by
  induction fields with
  | nil => simp [setField, lookupFirst]
  | cons f rest ih =>
    obtain ⟨k', v'⟩ := f
    by_cases he : k' = k
    · subst he
      simp [setField, lookupFirst]
    · simp [setField, lookupFirst, he, ih]

lemma lookupFirst_setField_other (fields : List (String × JVal)) (k k' : String)
    (v : JVal) (hne : k' ≠ k) :
    lookupFirst (setField fields k' v) k = lookupFirst fields k := by
  induction fields with
  | nil => simp [setField, lookupFirst, hne]
  | cons f rest ih =>
    obtain ⟨k₀, v₀⟩ := f
    by_cases he : k₀ = k'
    · subst he
      simp [setField, lookupFirst, hne]
    · simp only [setField, if_neg he, lookupFirst]
      split <;> simp [ih]

lemma getNestedParts_append (obj : JVal) (l₁ l₂ : List String) :
    getNestedParts obj (l₁ ++ l₂) = getNestedParts (getNestedParts obj l₁) l₂ :=
  List.foldl_append _ _ _ _

lemma getNestedParts_falsy (w : JVal) (h : truthy w = false) :
    ∀ l, getNestedParts w l = w := by
  intro l
  induction l with
  | nil => rfl
  | cons p ps ih =>
    show getNestedParts (getStep w p) ps = w
    rw [getStep, if_neg (by simp [h])]
    exact ih

/-- C2, counterexample: `getNestedValue({a: 0}, "a.b")` returns the stored
falsy value `0` itself — not the absent marker `undefined` that the claim
requires for a non-traversable step — because the reduce step
`acc && acc[part]` short-circuits to the falsy accumulator. -/
theorem getNestedValue_falsy_counterexample :
    getNestedValue (vObj [("a", vNum 0)]) "a.b" = vNum 0 ∧ vNum 0 ≠ vUndef :=
  ⟨rfl, fun h => JVal.noConfusion h⟩

/-- C2 (amended): if walking the path reaches a step where the current
value is falsy — the absent marker after a missing key, but also a stored
falsy primitive such as `0`, `''` or `false` — traversal stops early and
`getNestedValue` returns that falsy value itself (the absent marker
exactly when a key was missing), not an error; a truthy non-mapping is
instead indexed, which yields the absent marker for keys it lacks. -/
theorem getNestedValue_falsy_short_circuits (obj : JVal) (pre post : List String)
    (h : truthy (getNestedParts obj pre) = false) :
    getNestedParts obj (pre ++ post) = getNestedParts obj pre := by
  rw [getNestedParts_append]
  exact getNestedParts_falsy _ h post

/-- Witness for C2's amended theorem at `obj = {a: 0}` and path `"a.b"`
(`pre = ["a"]`, `post = ["b"]`). -/
theorem getNestedValue_falsy_short_circuits_witness :
    truthy (getNestedParts (vObj [("a", vNum 0)]) ["a"]) = false ∧
      getNestedParts (vObj [("a", vNum 0)]) (["a"] ++ ["b"]) =
        getNestedParts (vObj [("a", vNum 0)]) ["a"] :=
  ⟨rfl, getNestedValue_falsy_short_circuits (vObj [("a", vNum 0)]) ["a"] ["b"] rfl⟩

/-- C3, counterexample: `setNestedValue({a: 5}, "a.b", 1)` does not
overwrite the truthy non-mapping intermediate `5` with a new mapping:
`current[parts[i]] = current[parts[i]] || {}` keeps the truthy `5`, and
the subsequent property assignment on the number throws a `TypeError`
(strict mode), so there is no successful result and
`getNestedValue(obj, p)` cannot return `v`. -/
theorem setNestedValue_truthy_counterexample :
    setNestedValue (vObj [("a", vNum 5)]) "a.b" (vNum 1) = none := rfl

lemma setGo_prim_none (w : JVal) (ht : truthy w = true)
    (hobj : isTypeofObject w = false) :
    ∀ parts : List String, parts ≠ [] → ∀ v, setGo w parts v = none := by
  intro parts hne v
  cases w with
  | vNull => simp [truthy] at ht
  | vUndef => simp [truthy] at ht
  | vArr xs => simp [isTypeofObject] at hobj
  | vObj fields => simp [isTypeofObject] at hobj
  | vBool b =>
    cases parts with
    | nil => exact absurd rfl hne
    | cons p rest =>
      cases rest with
      | nil => rfl
      | cons q rest' => rfl
  | vNum n =>
    cases parts with
    | nil => exact absurd rfl hne
    | cons p rest =>
      cases rest with
      | nil => rfl
      | cons q rest' => rfl
  | vStr s =>
    cases parts with
    | nil => exact absurd rfl hne
    | cons p rest =>
      cases rest with
      | nil => rfl
      | cons q rest' => rfl

/-- Does the walk of `setNestedValue` hit, at some intermediate
(non-final) segment, an existing truthy value that is not of
`typeof 'object'` (a non-zero number, non-empty string, or `true`)?
The walk mirrors the loop of the source: a truthy intermediate slot is
kept, a falsy one is replaced by a fresh `{}` (the `|| {}`). -/
def walkHitsTruthyPrim : JVal → List String → Bool
  | _, [] => false
  | _, [_] => false
  | cur, p :: q :: rest =>
    (truthy (getProp cur p) && !isTypeofObject (getProp cur p)) ||
      walkHitsTruthyPrim
        (if truthy (getProp cur p) then getProp cur p else vObj []) (q :: rest)

lemma setGo_hits_none :
    ∀ (parts : List String) (cur v : JVal),
      walkHitsTruthyPrim cur parts = true → setGo cur parts v = none := by
  intro parts
  induction parts with
  | nil => intro cur v h; simp [walkHitsTruthyPrim] at h
  | cons p rest ih =>
    intro cur v h
    cases rest with
    | nil => simp [walkHitsTruthyPrim] at h
    | cons q rest' =>
      simp only [walkHitsTruthyPrim, Bool.or_eq_true, Bool.and_eq_true] at h
      have hchild : setGo
          (if truthy (getProp cur p) = true then getProp cur p else vObj [])
          (q :: rest') v = none := by
        rcases h with ⟨htr, hobj⟩ | hrec
        · rw [if_pos htr]
          exact setGo_prim_none _ htr (by simpa using hobj) (q :: rest') (by simp) v
        · exact ih _ v hrec
      by_cases hnl : isNullish cur = true
      · simp [setGo, hnl]
      · have hnl2 : isNullish cur = false := by simpa using hnl
        cases has : assignProp cur p
            (if truthy (getProp cur p) = true then getProp cur p else vObj []) with
        | none => simp [setGo, hnl2, has]
        | some cur1 => simp [setGo, hnl2, has, hchild]

/-- C3 (amended): when any intermediate segment of the path holds a
truthy non-mapping value (e.g. a non-zero number or a non-empty string),
the default policy is NOT to overwrite it with a new mapping: the `|| {}`
keeps the truthy value, the walk descends into the primitive and the next
property assignment throws a `TypeError` (strict mode), so the call
produces no successful result and the round trip fails. (Only a falsy
intermediate is replaced by a fresh `{}`.) -/
theorem setNestedValue_truthy_nonmapping_throws (obj : JVal) (path : String)
    (v : JVal) (h : walkHitsTruthyPrim obj (pathParts path) = true) :
    setNestedValue obj path v = none :=
  setGo_hits_none (pathParts path) obj v h

/-- Witness for C3's amended theorem at `obj = {x: {a: 5}}`, path
`"x.a.b"`, `v = 1` (the truthy non-mapping `5` sits at the SECOND
intermediate segment, behind the mapping at `x`). -/
theorem setNestedValue_truthy_nonmapping_throws_witness :
    walkHitsTruthyPrim (vObj [("x", vObj [("a", vNum 5)])])
        (pathParts "x.a.b") = true ∧
      setNestedValue (vObj [("x", vObj [("a", vNum 5)])]) "x.a.b" (vNum 1) = none :=
  ⟨rfl,
    setNestedValue_truthy_nonmapping_throws (vObj [("x", vObj [("a", vNum 5)])])
      "x.a.b" (vNum 1) rfl⟩

/-- The precondition of the round-trip law (C5): along the non-final path
segments, every existing truthy intermediate value is a mapping. (A
missing or falsy slot is not a collision: `setNestedValue` replaces it by
a fresh `{}` via `|| {}`.) -/
def interOk : JVal → List String → Bool
  | _, [] => true
  | _, [_] => true
  | cur, p :: q :: rest =>
    (!truthy (getProp cur p) || isObjMap (getProp cur p)) &&
      interOk (if truthy (getProp cur p) then getProp cur p else vObj [])
        (q :: rest)

lemma roundTripAux :
    ∀ parts : List String, parts ≠ [] → ∀ (cur v : JVal),
      isObjMap cur = true → interOk cur parts = true →
      ∃ r, setGo cur parts v = some r ∧ getNestedParts r parts = v := by
  intro parts
  induction parts with
  | nil => intro h; exact absurd rfl h
  | cons p rest ih =>
    intro _ cur v hcur hok
    cases cur with
    | vObj fields =>
      cases rest with
      | nil =>
        refine ⟨vObj (setField fields p v), rfl, ?_⟩
        show getNestedParts (getStep (vObj (setField fields p v)) p) [] = v
        simp [getNestedParts, getStep, truthy, getProp, lookupFirst_setField_self]
      | cons q rest' =>
        simp only [interOk, Bool.and_eq_true] at hok
        obtain ⟨hmapOk, hokRest⟩ := hok
        set c0 := getProp (vObj fields) p with hc0
        set child := if truthy c0 then c0 else vObj [] with hchildDef
        have hchild : isObjMap child = true := by
          rw [hchildDef]
          cases htr : truthy c0 with
          | true => simpa [htr] using hmapOk
          | false => simp [htr, isObjMap]
        obtain ⟨r', hset', hget'⟩ := ih (by simp) child v hchild (by
          rw [hchildDef]
          exact hokRest)
        refine ⟨vObj (setField (setField fields p child) p r'), ?_, ?_⟩
        · show setGo (vObj fields) (p :: q :: rest') v = _
          simp only [setGo, isNullish, ← hc0, ← hchildDef, assignProp, hset',
            Bool.false_eq_true, if_false]
        · show getNestedParts
            (getStep (vObj (setField (setField fields p child) p r')) p)
            (q :: rest') = v
          have : getStep (vObj (setField (setField fields p child) p r')) p = r' := by
            simp [getStep, truthy, getProp, lookupFirst_setField_self]
          rw [this]
          exact hget'
    | vNull => simp [isObjMap] at hcur
    | vUndef => simp [isObjMap] at hcur
    | vBool b => simp [isObjMap] at hcur
    | vNum n => simp [isObjMap] at hcur
    | vStr s => simp [isObjMap] at hcur
    | vArr xs => simp [isObjMap] at hcur

/-- C5 (confirmed): for every mapping `m`, dot path `p` and value `v`
such that no intermediate segment of `p` collides with an existing
non-mapping value (formally: every existing truthy intermediate along the
walk is a mapping — the exact code-level condition, which is implied by
the claim's stronger "no existing non-mapping intermediate"),
`setNestedValue(m, p, v)` succeeds and `getNestedValue` of the result at
`p` returns `v`. -/
theorem setNestedValue_getNestedValue_roundTrip (obj : JVal) (path : String)
    (v : JVal) (hobj : isObjMap obj = true)
    (hok : interOk obj (pathParts path) = true) :
    ∃ r, setNestedValue obj path v = some r ∧ getNestedValue r path = v :=
  roundTripAux (pathParts path) (pathParts_ne_nil path) obj v hobj hok

/-- Witness for C5 at `m = {}`, `p = "a.b.c"`, `v = 1`. -/
theorem setNestedValue_getNestedValue_roundTrip_witness :
    isObjMap (vObj []) = true ∧ interOk (vObj []) (pathParts "a.b.c") = true ∧
      ∃ r, setNestedValue (vObj []) "a.b.c" (vNum 1) = some r ∧
        getNestedValue r "a.b.c" = vNum 1 :=
  ⟨rfl, rfl, setNestedValue_getNestedValue_roundTrip (vObj []) "a.b.c" (vNum 1) rfl rfl⟩

lemma lookupFirst_foldl_setField_of_not_mem (g : String × JVal → JVal) :
    ∀ (ps acc : List (String × JVal)) (k : String), k ∉ ps.map Prod.fst →
      lookupFirst (ps.foldl (fun out kv => setField out kv.1 (g kv)) acc) k =
        lookupFirst acc k := by
  intro ps
  induction ps with
  | nil => intro acc k _; rfl
  | cons kv rest ih =>
    intro acc k hk
    simp only [List.map_cons, List.mem_cons, not_or] at hk
    obtain ⟨hne, hrest⟩ := hk
    show lookupFirst
      (rest.foldl (fun out kv => setField out kv.1 (g kv)) (setField acc kv.1 (g kv))) k
      = lookupFirst acc k
    rw [ih (setField acc kv.1 (g kv)) k hrest,
      lookupFirst_setField_other acc k kv.1 (g kv) (fun h => hne h.symm)]

lemma lookupFirst_foldl_setField (g : String × JVal → JVal) :
    ∀ (ps acc : List (String × JVal)) (k : String) (sv : JVal),
      (ps.map Prod.fst).Nodup → (k, sv) ∈ ps →
      lookupFirst (ps.foldl (fun out kv => setField out kv.1 (g kv)) acc) k =
        some (g (k, sv)) := by
  intro ps
  induction ps with
  | nil => intro acc k sv _ hmem; simp at hmem
  | cons kv rest ih =>
    intro acc k sv hnodup hmem
    simp only [List.map_cons, List.nodup_cons] at hnodup
    obtain ⟨hhead, hrest⟩ := hnodup
    rcases List.mem_cons.mp hmem with heq | hmem'
    · subst heq
      show lookupFirst
        (rest.foldl (fun out kv => setField out kv.1 (g kv)) (setField acc k (g (k, sv)))) k
        = some (g (k, sv))
      rw [lookupFirst_foldl_setField_of_not_mem g rest _ k hhead,
        lookupFirst_setField_self]
    · exact ih (setField acc kv.1 (g kv)) k sv hrest hmem'

/-- C1, counterexample: `deepMerge({a: [1, 2]}, {a: [9]})` does NOT
replace the target array wholesale with the source array `[9]`: both
values pass the `typeof === 'object'` test, so the code recurses and
merges them key-wise, producing the plain object `{0: 9, 1: 2}` at `a` —
an object, not the source array. -/
theorem deepMerge_array_counterexample :
    deepMerge (vObj [("a", vArr [vNum 1, vNum 2])]) (vObj [("a", vArr [vNum 9])]) =
      vObj [("a", vObj [("0", vNum 9), ("1", vNum 2)])] ∧
    vObj [("0", vNum 9), ("1", vNum 2)] ≠ vArr [vNum 9] :=
  ⟨rfl, fun h => JVal.noConfusion h⟩

/-- C1 (amended): for a key `k` owned by `source` with value `sv`, the
merged object holds exactly: the source value `sv` wholesale whenever the
pair fails the both-truthy-`typeof`-objects test (so for any primitive on
either side source wins); but when both `sv` and `target[k]` are truthy
values of `typeof 'object'` — mappings or arrays alike — the two are
merged key-wise (`deepMerge` recursively), so an array is NOT replaced
wholesale when it meets another object or array. -/
theorem deepMerge_source_key (t s : JVal) (k : String) (sv : JVal)
    (hnodup : ((ownPairs s).map Prod.fst).Nodup)
    (hmem : (k, sv) ∈ ownPairs s) :
    getProp (deepMerge t s) k =
      if truthy sv && isTypeofObject sv && hasOwn t k &&
          truthy (getProp t k) && isTypeofObject (getProp t k)
      then deepMerge (getProp t k) sv
      else sv := by
  rw [deepMerge_eq]
  show (lookupFirst _ k).getD vUndef = _
  have hfold :
      (ownPairs s).foldl
        (fun out kv =>
          if truthy kv.2 && isTypeofObject kv.2 && hasOwn t kv.1 &&
              truthy (getProp t kv.1) && isTypeofObject (getProp t kv.1)
          then setField out kv.1 (deepMerge (getProp t kv.1) kv.2)
          else setField out kv.1 kv.2)
        (ownPairs t) =
      (ownPairs s).foldl
        (fun out kv => setField out kv.1
          (if truthy kv.2 && isTypeofObject kv.2 && hasOwn t kv.1 &&
              truthy (getProp t kv.1) && isTypeofObject (getProp t kv.1)
           then deepMerge (getProp t kv.1) kv.2
           else kv.2))
        (ownPairs t) := by
    apply List.foldl_ext
    intro acc kv _
    by_cases h : truthy kv.2 && isTypeofObject kv.2 && hasOwn t kv.1 &&
        truthy (getProp t kv.1) && isTypeofObject (getProp t kv.1) <;>
      simp [h]
  rw [hfold, lookupFirst_foldl_setField _ (ownPairs s) (ownPairs t) k sv hnodup hmem]
  rfl

/-- Witness for C1's amended theorem at `target = {a: [1, 2]}`,
`source = {a: [9]}`, key `"a"` (the both-arrays case: key-wise merge). -/
theorem deepMerge_source_key_witness :
    ((ownPairs (vObj [("a", vArr [vNum 9])])).map Prod.fst).Nodup ∧
      ("a", vArr [vNum 9]) ∈ ownPairs (vObj [("a", vArr [vNum 9])]) ∧
      getProp (deepMerge (vObj [("a", vArr [vNum 1, vNum 2])])
          (vObj [("a", vArr [vNum 9])])) "a" =
        if truthy (vArr [vNum 9]) && isTypeofObject (vArr [vNum 9]) &&
            hasOwn (vObj [("a", vArr [vNum 1, vNum 2])]) "a" &&
            truthy (getProp (vObj [("a", vArr [vNum 1, vNum 2])]) "a") &&
            isTypeofObject (getProp (vObj [("a", vArr [vNum 1, vNum 2])]) "a")
        then deepMerge (getProp (vObj [("a", vArr [vNum 1, vNum 2])]) "a")
          (vArr [vNum 9])
        else vArr [vNum 9] :=
  ⟨by simp [ownPairs], by simp [ownPairs],
    deepMerge_source_key (vObj [("a", vArr [vNum 1, vNum 2])])
      (vObj [("a", vArr [vNum 9])]) "a" (vArr [vNum 9])
      (by simp [ownPairs]) (by simp [ownPairs])⟩

/-- Pairwise-distinct keys (Boolean form of `List.Nodup`). -/
def distinctKeys : List String → Bool
  | [] => true
  | k :: ks => !ks.contains k && distinctKeys ks

lemma distinctKeys_iff_nodup (ks : List String) :
    distinctKeys ks = true ↔ ks.Nodup := by
  induction ks with
  | nil => simp [distinctKeys]
  | cons k ks ih => simp [distinctKeys, ih, List.nodup_cons]

mutual
/-- Well-formedness of a value as the image of a real JavaScript value:
every object node has pairwise-distinct keys (a JS object cannot carry a
duplicate key; the association-list representation is constrained by this
invariant). -/
def JVal.wf : JVal → Bool
  | vNull => true
  | vUndef => true
  | vBool _ => true
  | vNum _ => true
  | vStr _ => true
  | vArr xs => wfList xs
  | vObj fields => distinctKeys (fields.map Prod.fst) && wfFields fields

/-- All elements well-formed. -/
def wfList : List JVal → Bool
  | [] => true
  | x :: xs => JVal.wf x && wfList xs

/-- All field values well-formed. -/
def wfFields : List (String × JVal) → Bool
  | [] => true
  | f :: fs => JVal.wf f.2 && wfFields fs
end

lemma wfFields_mem :
    ∀ {fields : List (String × JVal)} {k : String} {v : JVal},
      wfFields fields = true → (k, v) ∈ fields → JVal.wf v = true := by
  intro fields
  induction fields with
  | nil => intro k v _ hmem; simp at hmem
  | cons f rest ih =>
    intro k v hwf hmem
    simp only [wfFields, Bool.and_eq_true] at hwf
    rcases List.mem_cons.mp hmem with heq | hmem'
    · subst heq; exact hwf.1
    · exact ih hwf.2 hmem'

lemma wfList_mem :
    ∀ {xs : List JVal} {x : JVal},
      wfList xs = true → x ∈ xs → JVal.wf x = true := by
  intro xs
  induction xs with
  | nil => intro x _ hmem; simp at hmem
  | cons y rest ih =>
    intro x hwf hmem
    simp only [wfList, Bool.and_eq_true] at hwf
    rcases List.mem_cons.mp hmem with heq | hmem'
    · subst heq; exact hwf.1
    · exact ih hwf.2 hmem'

lemma lookupFirst_mem :
    ∀ {fields : List (String × JVal)} {k : String} {v : JVal},
      lookupFirst fields k = some v → (k, v) ∈ fields := by
  intro fields
  induction fields with
  | nil => intro k v h; simp [lookupFirst] at h
  | cons f rest ih =>
    intro k v h
    obtain ⟨k', v'⟩ := f
    simp only [lookupFirst] at h
    split at h
    · rename_i he
      subst he
      simp only [Option.some.injEq] at h
      subst h
      exact List.mem_cons_self _ _
    · exact List.mem_cons_of_mem _ (ih h)

lemma wf_getProp (a : JVal) (k : String) (h : JVal.wf a = true) :
    JVal.wf (getProp a k) = true := by
  cases a with
  | vObj fields =>
    simp only [JVal.wf, Bool.and_eq_true] at h
    simp only [getProp]
    cases hl : lookupFirst fields k with
    | none => rfl
    | some v => exact wfFields_mem h.2 (lookupFirst_mem hl)
  | vArr xs =>
    simp only [JVal.wf] at h
    simp only [getProp]
    split
    · rfl
    · split
      · rename_i i _
        rw [List.getD]
        cases hg : xs.get? i with
        | none => rfl
        | some x =>
          simp only [Option.getD_some]
          rw [List.get?_eq_getElem?] at hg
          exact wfList_mem h (List.getElem?_mem hg)
      · rfl
  | vStr s =>
    simp only [getProp]
    split
    · rfl
    · split
      · rename_i i _
        cases s.data.get? i <;> rfl
      · rfl
  | vNull => rfl
  | vUndef => rfl
  | vBool b => rfl
  | vNum n => rfl

lemma ownKeys_nodup (a : JVal) (h : JVal.wf a = true) : (ownKeys a).Nodup := by
  cases a with
  | vObj fields =>
    simp only [JVal.wf, Bool.and_eq_true] at h
    exact (distinctKeys_iff_nodup _).mp h.1
  | vArr xs =>
    show ((xs.enum.map fun p => (natToKey p.1, p.2)).map Prod.fst).Nodup
    rw [List.map_map]
    have : (Prod.fst ∘ fun p : Nat × JVal => (natToKey p.1, p.2)) =
        natToKey ∘ Prod.fst := rfl
    rw [this, ← List.map_map, List.enum_map_fst]
    exact (List.nodup_range _).map natToKey_injective
  | vStr s =>
    show ((s.data.enum.map fun p => (natToKey p.1, vStr (String.mk [p.2]))).map
      Prod.fst).Nodup
    rw [List.map_map]
    have : (Prod.fst ∘ fun p : Nat × Char => (natToKey p.1, vStr (String.mk [p.2]))) =
        natToKey ∘ Prod.fst := rfl
    rw [this, ← List.map_map, List.enum_map_fst]
    exact (List.nodup_range _).map natToKey_injective
  | vNull => simp [ownKeys, ownPairs]
  | vUndef => simp [ownKeys, ownPairs]
  | vBool b => simp [ownKeys, ownPairs]
  | vNum n => simp [ownKeys, ownPairs]

lemma jsStrictEq_symm (a b : JVal) : jsStrictEq a b = jsStrictEq b a := by
  cases a <;> cases b <;> simp [jsStrictEq] <;> exact eq_comm

lemma size_pos (x : JVal) : 1 ≤ JVal.size x := by
  cases x <;> simp [JVal.size]

lemma deepEqual_refl_aux : ∀ n x, JVal.size x ≤ n → deepEqual x x = true := by
  intro n
  induction n with
  | zero => intro x hx; have := size_pos x; omega
  | succ m ih =>
    intro x hx
    rw [deepEqual_eq]
    cases x with
    | vNull => rfl
    | vUndef => rfl
    | vBool b => simp [jsStrictEq]
    | vNum k => simp [jsStrictEq]
    | vStr s => simp [jsStrictEq]
    | vArr xs =>
      have h1 : jsStrictEq (vArr xs) (vArr xs) = false := rfl
      have h2 : (!isTypeofObject (vArr xs) || isNullV (vArr xs) ||
          !isTypeofObject (vArr xs) || isNullV (vArr xs)) = false := rfl
      simp only [h1, h2, Bool.false_eq_true, if_false, ne_eq, not_true_eq_false,
        ite_false]
      rw [List.all_eq_true]
      intro k hk
      simp only [Bool.and_eq_true]
      refine ⟨by simpa using hk, ?_⟩
      have hlt : JVal.size (getProp (vArr xs) k) < JVal.size (vArr xs) :=
        getProp_size_lt hk rfl rfl
      exact ih (getProp (vArr xs) k) (by omega)
    | vObj fs =>
      have h1 : jsStrictEq (vObj fs) (vObj fs) = false := rfl
      have h2 : (!isTypeofObject (vObj fs) || isNullV (vObj fs) ||
          !isTypeofObject (vObj fs) || isNullV (vObj fs)) = false := rfl
      simp only [h1, h2, Bool.false_eq_true, if_false, ne_eq, not_true_eq_false,
        ite_false]
      rw [List.all_eq_true]
      intro k hk
      simp only [Bool.and_eq_true]
      refine ⟨by simpa using hk, ?_⟩
      have hlt : JVal.size (getProp (vObj fs) k) < JVal.size (vObj fs) :=
        getProp_size_lt hk rfl rfl
      exact ih (getProp (vObj fs) k) (by omega)

/-- `deepEqual` is reflexive on the embedded value space (integer numbers:
there is no `NaN` to break reflexivity). -/
lemma deepEqual_refl (x : JVal) : deepEqual x x = true :=
  deepEqual_refl_aux (JVal.size x) x le_rfl

lemma deepEqual_symm_aux :
    ∀ n a b, JVal.size a + JVal.size b ≤ n → JVal.wf a = true →
      JVal.wf b = true → deepEqual a b = true → deepEqual b a = true := by
  intro n
  induction n with
  | zero =>
    intro a b hsz _ _ _
    have := size_pos a
    have := size_pos b
    omega
  | succ m ih =>
    intro a b hsz hwa hwb h
    rw [deepEqual_eq] at h
    by_cases hse : jsStrictEq a b = true
    · rw [deepEqual_eq, jsStrictEq_symm b a, hse]
      simp
    · have hse' : jsStrictEq a b = false := by simpa using hse
      simp only [hse', Bool.false_eq_true, if_false] at h
      by_cases hg : (!isTypeofObject a || isNullV a || !isTypeofObject b ||
          isNullV b) = true
      · rw [if_pos hg] at h
        exact absurd h (by simp)
      · have hg' : (!isTypeofObject a || isNullV a || !isTypeofObject b ||
            isNullV b) = false := by simpa using hg
        simp only [hg', Bool.false_eq_true, if_false] at h
        simp only [Bool.or_eq_false_iff] at hg'
        obtain ⟨⟨⟨hta0, hna⟩, htb0⟩, hnb⟩ := hg'
        have hta : isTypeofObject a = true := by simpa using hta0
        have htb : isTypeofObject b = true := by simpa using htb0
        by_cases hlen : (ownKeys a).length ≠ (ownKeys b).length
        · rw [if_pos hlen] at h
          exact absurd h (by simp)
        · push_neg at hlen
          rw [if_neg (by simp [hlen])] at h
          rw [List.all_eq_true] at h
          have hsub : ∀ k ∈ ownKeys a, k ∈ ownKeys b := by
            intro k hk
            have hc := h k hk
            simp only [Bool.and_eq_true] at hc
            simpa using hc.1
          have hnda := ownKeys_nodup a hwa
          have hndb := ownKeys_nodup b hwb
          have hset : (ownKeys a).toFinset = (ownKeys b).toFinset := by
            apply Finset.eq_of_subset_of_card_le
            · intro k hk
              rw [List.mem_toFinset] at *
              exact hsub k hk
            · rw [List.toFinset_card_of_nodup hnda, List.toFinset_card_of_nodup hndb,
                hlen]
          have hmemba : ∀ k ∈ ownKeys b, k ∈ ownKeys a := by
            intro k hk
            have hkf : k ∈ (ownKeys b).toFinset := by
              rw [List.mem_toFinset]; exact hk
            rw [← hset, List.mem_toFinset] at hkf
            exact hkf
          rw [deepEqual_eq]
          have hse2 : jsStrictEq b a = false := by
            rw [jsStrictEq_symm]; exact hse'
          simp only [hse2, Bool.false_eq_true, if_false]
          have hg2 : (!isTypeofObject b || isNullV b || !isTypeofObject a ||
              isNullV a) = false := by
            simp [htb, hnb, hta, hna]
          simp only [hg2, Bool.false_eq_true, if_false]
          rw [if_neg (by simp [hlen])]
          rw [List.all_eq_true]
          intro k hk
          have hka := hmemba k hk
          have hcomp := h k hka
          simp only [Bool.and_eq_true] at hcomp ⊢
          refine ⟨by simpa using hka, ?_⟩
          have hlta : JVal.size (getProp a k) < JVal.size a :=
            getProp_size_lt hka hta hna
          have hltb : JVal.size (getProp b k) < JVal.size b :=
            getProp_size_lt hk htb hnb
          exact ih (getProp a k) (getProp b k) (by omega)
            (wf_getProp a k hwa) (wf_getProp b k hwb) hcomp.2

/-- C6 (confirmed): `deepEqual` is symmetric — for all values `a` and `b`
of any shape (primitives, arrays, mappings, `null`), it returns the same
boolean in both argument orders. (The hypotheses say only that `a` and
`b` are images of real JavaScript values: no object node carries a
duplicate key.) -/
theorem deepEqual_symm (a b : JVal) (hwa : JVal.wf a = true)
    (hwb : JVal.wf b = true) : deepEqual a b = deepEqual b a := by
  cases h1 : deepEqual a b with
  | true =>
    exact (deepEqual_symm_aux (JVal.size a + JVal.size b) a b le_rfl hwa hwb h1).symm
  | false =>
    cases h2 : deepEqual b a with
    | false => rfl
    | true =>
      have := deepEqual_symm_aux (JVal.size b + JVal.size a) b a le_rfl hwb hwa h2
      rw [h1] at this
      exact this

/-- Witness for C6 at `a = {a: 1, b: {c: 2}}`, `b = [1]` (an object and an
array; both sides evaluate to `false`). -/
theorem deepEqual_symm_witness :
    JVal.wf (vObj [("a", vNum 1), ("b", vObj [("c", vNum 2)])]) = true ∧
      JVal.wf (vArr [vNum 1]) = true ∧
      deepEqual (vObj [("a", vNum 1), ("b", vObj [("c", vNum 2)])]) (vArr [vNum 1]) =
        deepEqual (vArr [vNum 1]) (vObj [("a", vNum 1), ("b", vObj [("c", vNum 2)])]) :=
  ⟨rfl, rfl,
    deepEqual_symm (vObj [("a", vNum 1), ("b", vObj [("c", vNum 2)])])
      (vArr [vNum 1]) rfl rfl⟩

lemma setField_append_of_not_mem (fields : List (String × JVal)) (k : String)
    (v : JVal) (h : k ∉ fields.map Prod.fst) :
    setField fields k v = fields ++ [(k, v)] := by
  induction fields with
  | nil => rfl
  | cons f rest ih =>
    obtain ⟨k', v'⟩ := f
    simp only [List.map_cons, List.mem_cons, not_or] at h
    obtain ⟨hne, hrest⟩ := h
    have hne' : ¬(k' = k) := fun he => hne he.symm
    simp only [setField, if_neg hne', List.cons_append, List.cons.injEq, true_and]
    exact ih hrest

lemma foldl_setField_id_rebuild :
    ∀ (ps acc : List (String × JVal)), (((acc ++ ps).map Prod.fst)).Nodup →
      ps.foldl (fun out kv => setField out kv.1 kv.2) acc = acc ++ ps := by
  intro ps
  induction ps with
  | nil => intro acc _; simp
  | cons kv rest ih =>
    intro acc hnd
    have hnd2 := hnd
    rw [List.map_append, List.nodup_append] at hnd2
    have hk : kv.1 ∉ acc.map Prod.fst := by
      intro hmem
      exact hnd2.2.2 hmem (by simp)
    show rest.foldl _ (setField acc kv.1 kv.2) = acc ++ kv :: rest
    rw [setField_append_of_not_mem acc kv.1 kv.2 hk]
    have hnd3 : (((acc ++ [kv]) ++ rest).map Prod.fst).Nodup := by
      rw [List.append_assoc]
      simpa using hnd
    rw [ih (acc ++ [kv]) hnd3, List.append_assoc]
    rfl

/-- C7 (confirmed): the empty mapping is an identity for `deepMerge` up to
deep equality: for every mapping `m`, `deepMerge(m, {})` is (exactly) `m`
and `deepMerge({}, m)` rebuilds `m`'s fields, both deep-equal to `m`. -/
theorem deepMerge_empty_identity (m : JVal) (hm : isObjMap m = true)
    (hwf : JVal.wf m = true) :
    deepEqual (deepMerge m (vObj [])) m = true ∧
      deepEqual (deepMerge (vObj []) m) m = true := by
  cases m with
  | vObj fields =>
    constructor
    · have h1 : deepMerge (vObj fields) (vObj []) = vObj fields := by
        rw [deepMerge_eq]
        rfl
      rw [h1]
      exact deepEqual_refl _
    · have h2 : deepMerge (vObj []) (vObj fields) = vObj fields := by
        rw [deepMerge_eq]
        have hxt : ∀ (acc : List (String × JVal)) (kv : String × JVal),
            kv ∈ ownPairs (vObj fields) →
            (if truthy kv.2 && isTypeofObject kv.2 && hasOwn (vObj []) kv.1 &&
                truthy (getProp (vObj []) kv.1) &&
                isTypeofObject (getProp (vObj []) kv.1)
             then setField acc kv.1 (deepMerge (getProp (vObj []) kv.1) kv.2)
             else setField acc kv.1 kv.2) = setField acc kv.1 kv.2 := by
          intro acc kv _
          have hown : hasOwn (vObj []) kv.1 = false := rfl
          rw [if_neg (by simp [hown])]
        rw [List.foldl_ext _ _ (ownPairs (vObj [])) hxt]
        have hnodup : ((([] : List (String × JVal)) ++ ownPairs (vObj fields)).map
            Prod.fst).Nodup := by
          simp only [List.nil_append]
          simp only [JVal.wf, Bool.and_eq_true] at hwf
          exact (distinctKeys_iff_nodup _).mp hwf.1
        show vObj ((ownPairs (vObj fields)).foldl
          (fun out kv => setField out kv.1 kv.2) []) = vObj fields
        rw [foldl_setField_id_rebuild (ownPairs (vObj fields)) [] hnodup]
        rfl
      rw [h2]
      exact deepEqual_refl _
  | vNull => simp [isObjMap] at hm
  | vUndef => simp [isObjMap] at hm
  | vBool b => simp [isObjMap] at hm
  | vNum n => simp [isObjMap] at hm
  | vStr s => simp [isObjMap] at hm
  | vArr xs => simp [isObjMap] at hm

/-- Witness for C7 at `m = {a: 1, b: {c: 2}}`. -/
theorem deepMerge_empty_identity_witness :
    isObjMap (vObj [("a", vNum 1), ("b", vObj [("c", vNum 2)])]) = true ∧
      JVal.wf (vObj [("a", vNum 1), ("b", vObj [("c", vNum 2)])]) = true ∧
      (deepEqual (deepMerge (vObj [("a", vNum 1), ("b", vObj [("c", vNum 2)])])
          (vObj [])) (vObj [("a", vNum 1), ("b", vObj [("c", vNum 2)])]) = true ∧
        deepEqual (deepMerge (vObj [])
            (vObj [("a", vNum 1), ("b", vObj [("c", vNum 2)])]))
          (vObj [("a", vNum 1), ("b", vObj [("c", vNum 2)])]) = true) :=
  ⟨rfl, rfl,
    deepMerge_empty_identity (vObj [("a", vNum 1), ("b", vObj [("c", vNum 2)])])
      rfl rfl⟩

/-- A lowercase hexadecimal digit character. -/
def isHexChar (c : Char) : Bool :=
  ('0' <= c && c <= '9') || ('a' <= c && c <= 'f')

/-- The v4 shape of C8 over a character list: exactly 36 characters,
hyphens at positions 8, 13, 18 and 23, the character `'4'` at
position 14, a character among `8`/`9`/`a`/`b` at position 19, and a
hexadecimal digit at every non-hyphen position. -/
def uuidShape (cs : List Char) : Bool :=
  (cs.length == 36) &&
    ([8, 13, 18, 23].all fun i => cs.getD i ' ' == '-') &&
    (cs.getD 14 ' ' == '4') &&
    (['8', '9', 'a', 'b'].contains (cs.getD 19 ' ')) &&
    ((List.range 36).all fun i =>
      [8, 13, 18, 23].contains i || isHexChar (cs.getD i ' '))

lemma isHexChar_hexDigit : ∀ r : Fin 16, isHexChar (hexDigit r) = true := by decide

lemma yDigit_mem89ab :
    ∀ r : Fin 16, (['8', '9', 'a', 'b'].contains (yDigit r)) = true := by decide

lemma isHexChar_yDigit : ∀ r : Fin 16, isHexChar (yDigit r) = true := by decide

/-- C8 (confirmed): for every possible sequence of outcomes of the random
source, `generateUUID()` returns a v4-style identifier: 36 characters,
hyphens at positions 8, 13, 18 and 23, `'4'` at position 14, one of
`'8'`, `'9'`, `'a'`, `'b'` at position 19, and hexadecimal digits
everywhere else. -/
theorem generateUUID_v4_shape (f : Nat → Fin 16) :
    uuidShape (generateUUID f).data = true := by
  have hlist : (generateUUID f).data =
      [hexDigit (f 0), hexDigit (f 1), hexDigit (f 2), hexDigit (f 3), hexDigit (f 4),
      hexDigit (f 5), hexDigit (f 6), hexDigit (f 7), '-', hexDigit (f 8),
      hexDigit (f 9), hexDigit (f 10), hexDigit (f 11), '-', '4', hexDigit (f 12),
      hexDigit (f 13), hexDigit (f 14), '-', yDigit (f 15), hexDigit (f 16),
      hexDigit (f 17), hexDigit (f 18), '-', hexDigit (f 19), hexDigit (f 20),
      hexDigit (f 21), hexDigit (f 22), hexDigit (f 23), hexDigit (f 24),
      hexDigit (f 25), hexDigit (f 26), hexDigit (f 27), hexDigit (f 28),
      hexDigit (f 29), hexDigit (f 30)] := rfl
  rw [hlist]
  simp only [uuidShape, Bool.and_eq_true]
  refine ⟨⟨⟨⟨rfl, rfl⟩, rfl⟩, yDigit_mem89ab (f 15)⟩, ?_⟩
  rw [List.all_eq_true]
  intro i hi
  have hi36 : i < 36 := List.mem_range.mp hi
  interval_cases i <;>
    simp [isHexChar_hexDigit, isHexChar_yDigit, List.getD] <;> rfl

lemma regexTest_pair_mem (e : RElem) (ch : Char) :
    ∀ cs, regexTest [e, RElem.rChar ch] cs = true → ch ∈ cs := by
  intro cs
  induction cs with
  | nil => intro h; simp [regexTest, matchSeq] at h
  | cons c cs' ih =>
    intro h
    simp only [regexTest, Bool.or_eq_true] at h
    rcases h with h | h
    · simp only [matchSeq, Bool.and_eq_true] at h
      obtain ⟨-, h2⟩ := h
      cases cs' with
      | nil => simp [matchSeq] at h2
      | cons d ds =>
        simp only [matchSeq, Bool.and_eq_true, elemMatch] at h2
        have : d = ch := by simpa using h2.1
        subst this
        exact List.mem_cons_of_mem _ (List.mem_cons_self _ _)
    · exact List.mem_cons_of_mem _ (ih h)

/-- The compiled form of the default symbol pattern
`'[' + '!@#$%^&*()-_+=<>?/[]' + ']'`: the character class closes at the
`']'` INSIDE the symbols string (leaving `'['` as its last member and
`)-_` as a code-point range), and the final `']'` of the construction
remains as a required literal character after the class. -/
lemma defaultSymbolPattern_eq :
    parsePattern ('[' :: defaultSymbols.data ++ [']']) =
      [RElem.rClass
        [CItem.single '!', CItem.single '@', CItem.single '#', CItem.single '$',
         CItem.single '%', CItem.single '^', CItem.single '&', CItem.single '*',
         CItem.single '(', CItem.crange ')' '_', CItem.single '+',
         CItem.single '=', CItem.single '<', CItem.single '>', CItem.single '?',
         CItem.single '/', CItem.single '['],
       RElem.rChar ']'] := rfl

/-- C9 (confirmed): with the default configuration, `validatePassword`
returns `false` for every password that does not contain the character
`']'`: the symbol pattern `'[' + symbols + ']'` closes its character
class at the `']'` inside the default symbols string, leaving a trailing
literal `']'` that any matching password must contain (immediately after
a class character), and the `requireSymbol` check must pass for the
function to return `true`. -/
theorem validatePassword_default_requires_rbracket (p : String)
    (h : ']' ∉ p.data) : validatePassword p {} = false := by
  rw [validatePassword]
  split
  · rfl
  · split
    · rfl
    · split
      · rfl
      · split
        · rfl
        · split
          · rfl
          · rename_i hsym
            exfalso
            rw [Bool.not_eq_true, Bool.and_eq_false_iff] at hsym
            rcases hsym with hsym | hsym
            · exact absurd hsym (by simp)
            · rw [Bool.not_eq_false'] at hsym
              have hmem : ']' ∈ p.data := by
                have := hsym
                rw [show (({} : PasswordValidationConfig).symbols.getD
                  defaultSymbols) = defaultSymbols from rfl] at this
                rw [defaultSymbolPattern_eq] at this
                exact regexTest_pair_mem _ ']' p.data this
              exact h hmem

/-- Witness for C9 at `p = "Aa1!aaaa"` (meets every other requirement —
length, cases, digit, Latin-only — yet fails for want of `']'`). -/
theorem validatePassword_default_requires_rbracket_witness :
    (']' ∉ ("Aa1!aaaa" : String).data) ∧ validatePassword "Aa1!aaaa" {} = false :=
  ⟨by decide, validatePassword_default_requires_rbracket "Aa1!aaaa" (by decide)⟩

lemma splitWord_no_sep :
    ∀ (l : List Char), (∀ x ∈ l, isSepChar x = false) →
      ∀ acc, splitWord l acc = [acc.reverse ++ l] := by
  intro l
  induction l with
  | nil => intro _ acc; simp [splitWord]
  | cons c cs ih =>
    intro hsep acc
    have hc : isSepChar c = false := hsep c (List.mem_cons_self _ _)
    simp only [splitWord, hc, Bool.false_eq_true, if_false]
    rw [ih (fun x hx => hsep x (List.mem_cons_of_mem _ hx)) (c :: acc)]
    simp

/-- C10 (confirmed): for every non-empty input containing no whitespace,
hyphen or underscore (a single word), `toSentenceCase` returns the word
with its first character upper-cased and the rest lower-cased, followed by
exactly one trailing space — the `' '` separator is concatenated
unconditionally before the (empty) join of the remaining words. -/
theorem toSentenceCase_single_word (s : String) (c : Char) (cs : List Char)
    (hdata : s.data = c :: cs)
    (hsep : ∀ x ∈ s.data, isSepChar x = false) :
    toSentenceCase s = String.mk (Char.toUpper c :: cs.map Char.toLower) ++ " " := by
  have hsplit : splitIntoWords s = [s] := by
    rw [splitIntoWords, splitWord_no_sep s.data hsep []]
    simp
  rw [toSentenceCase]
  simp only [hsplit, List.headD_cons, List.drop_succ_cons, List.drop_nil]
  rw [charAt, hdata]
  simp only [List.get?_cons_zero]
  show String.mk [c.toUpper] ++ String.mk ((s.data.drop 1).map Char.toLower) ++
    " " ++ String.mk (("" : String).data.map Char.toLower) = _
  rw [hdata]
  show String.mk [c.toUpper] ++ String.mk (cs.map Char.toLower) ++ " " ++ "" = _
  have happ : ∀ l₁ l₂ : List Char, String.mk l₁ ++ String.mk l₂ = String.mk (l₁ ++ l₂) :=
    fun _ _ => rfl
  rw [happ, happ]
  show String.mk ((c.toUpper :: cs.map Char.toLower) ++ [' ']) ++ "" = _
  rw [String.append_empty]
  rfl

/-- Witness for C10 at `s = "hELLO"` (yields `"Hello "`, with the
trailing space). -/
theorem toSentenceCase_single_word_witness :
    ("hELLO" : String).data = 'h' :: ("ELLO" : String).data ∧
      (∀ x ∈ ("hELLO" : String).data, isSepChar x = false) ∧
      toSentenceCase "hELLO" =
        String.mk (Char.toUpper 'h' :: ("ELLO" : String).data.map Char.toLower) ++ " " :=
  ⟨rfl, by decide,
    toSentenceCase_single_word "hELLO" 'h' ("ELLO" : String).data rfl (by decide)⟩

/-! ### Heap model for the frame property of `deepMerge` (non-mutation)

The tree embedding above cannot state mutation, so `deepMerge` is embedded
a second time over an explicit heap: objects and arrays live in addressed
cells, values are primitives or references, and every write names the cell
it changes. The theorem then states that a successful merge changes no
pre-existing cell — in particular nothing reachable from `target` or
`source` at any nesting level — and returns a freshly allocated object. -/

/-- A primitive heap value. -/
inductive HPrim where
  | hNull : HPrim
  | hUndef : HPrim
  | hBool (b : Bool) : HPrim
  | hNum (n : Int) : HPrim
  | hStr (s : String) : HPrim
  deriving DecidableEq

/-- A heap value: a primitive or a reference to a heap cell. -/
inductive HVal where
  | prim (p : HPrim) : HVal
  | ref (a : Nat) : HVal
  deriving DecidableEq

/-- A heap cell: an object node (ordered fields) or an array node. -/
inductive HCell where
  | cObj (fields : List (String × HVal)) : HCell
  | cArr (elems : List HVal) : HCell
  deriving DecidableEq

/-- A heap: an allocation counter and an association list of cells;
`alloc` uses fresh addresses, lookup takes the first match. -/
structure Heap where
  next : Nat
  cells : List (Nat × HCell)
  deriving DecidableEq

/-- First-match address lookup. -/
def lookupAddr : List (Nat × HCell) → Nat → Option HCell
  | [], _ => none
  | (a', c) :: rest, a => if a' = a then some c else lookupAddr rest a

/-- Replace the (first) cell at an address, leaving other cells alone. -/
def updateAddr : List (Nat × HCell) → Nat → HCell → List (Nat × HCell)
  | [], _, _ => []
  | (a', c') :: rest, a, c =>
    if a' = a then (a, c) :: rest else (a', c') :: updateAddr rest a c

/-- Read a cell. -/
def lookupCell (H : Heap) (a : Nat) : Option HCell :=
  lookupAddr H.cells a

/-- Overwrite a cell in place (the only mutation in the model). -/
def updateCell (H : Heap) (a : Nat) (c : HCell) : Heap :=
  ⟨H.next, updateAddr H.cells a c⟩

/-- Allocate a fresh cell, returning the new heap and the new address. -/
def alloc (H : Heap) (c : HCell) : Heap × Nat :=
  (⟨H.next + 1, (H.next, c) :: H.cells⟩, H.next)

/-- Every allocated address is below the allocation counter. -/
def heapWF (H : Heap) : Bool :=
  H.cells.all fun ac => ac.1 < H.next

/-- JavaScript truthiness at the heap level (references — objects and
arrays — are always truthy). -/
def truthyH : HVal → Bool
  | HVal.prim HPrim.hNull => false
  | HVal.prim HPrim.hUndef => false
  | HVal.prim (HPrim.hBool b) => b
  | HVal.prim (HPrim.hNum n) => n != 0
  | HVal.prim (HPrim.hStr s) => s != ""
  | HVal.ref _ => true

/-- `typeof v === 'object'` at the heap level: references and `null`. -/
def isTypeofObjectH : HVal → Bool
  | HVal.prim HPrim.hNull => true
  | HVal.ref _ => true
  | _ => false

/-- First-occurrence key lookup in a cell's field list. -/
def hLookupFirst : List (String × HVal) → String → Option HVal
  | [], _ => none
  | (k', v') :: rest, k => if k' = k then some v' else hLookupFirst rest k

/-- `obj[k] = v` on a field list: overwrite in place or append. -/
def hSetField : List (String × HVal) → String → HVal → List (String × HVal)
  | [], k, v => [(k, v)]
  | (k', v') :: rest, k, v =>
    if k' = k then (k, v) :: rest else (k', v') :: hSetField rest k v

/-- The own enumerable properties of a cell (`{...target}` and
`for (key in source)` enumerate exactly these). -/
def spreadOf : HCell → List (String × HVal)
  | HCell.cObj fields => fields
  | HCell.cArr xs => xs.enum.map fun p => (natToKey p.1, p.2)

/-- Property read `cell[k]`. -/
def cellField (c : HCell) (k : String) : HVal :=
  match c with
  | HCell.cObj fields => (hLookupFirst fields k).getD (HVal.prim HPrim.hUndef)
  | HCell.cArr xs =>
    if k = "length" then HVal.prim (HPrim.hNum xs.length)
    else match toIndex k with
      | some i => xs.getD i (HVal.prim HPrim.hUndef)
      | none => HVal.prim HPrim.hUndef

/-- `cell.hasOwnProperty(k)`. -/
def cellHasOwn (c : HCell) (k : String) : Bool :=
  match c with
  | HCell.cObj fields => (hLookupFirst fields k).isSome
  | HCell.cArr xs =>
    k = "length" ||
      (match toIndex k with
       | some i => decide (i < xs.length)
       | none => false)

/-- `output[k] = v`: the only write `deepMerge` performs; `output` is
always an object literal allocated by the merge itself (the array arm is
therefore never taken by the merge; it changes nothing). -/
def writeProp (H : Heap) (out : Nat) (k : String) (v : HVal) : Option Heap :=
  match lookupCell H out with
  | some (HCell.cObj fields) =>
    some (updateCell H out (HCell.cObj (hSetField fields k v)))
  | some (HCell.cArr xs) => some (updateCell H out (HCell.cArr xs))
  | none => none

/-- The body of `for (key in source)` at fuel-indexed merge function
`mergeFn`: per iteration the source reads `source[key]` and `target[key]`
from the live heap; if both are truthy `typeof 'object'` values (with
`target.hasOwnProperty(key)`), i.e. both are references, the referenced
cells are merged recursively (`mergeFn`) and the fresh result is written
at `output[key]`; otherwise `source[key]` is written wholesale. (The
`none` fallback arm of the inner match is dead code: the condition forces
both values to be references.) -/
def mergeLoopGo (mergeFn : Heap → Nat → Nat → Option (Heap × Nat)) :
    Heap → Nat → Nat → Nat → List String → Option Heap
  | H, _, _, _, [] => some H
  | H, out, t, s, k :: ks => do
    let sc ← lookupCell H s
    let tc ← lookupCell H t
    let sv := cellField sc k
    let tv := cellField tc k
    if truthyH sv && isTypeofObjectH sv && cellHasOwn tc k &&
        truthyH tv && isTypeofObjectH tv then
      match sv, tv with
      | HVal.ref sr, HVal.ref tr => do
        let (H₂, child) ← mergeFn H tr sr
        let H₃ ← writeProp H₂ out k (HVal.ref child)
        mergeLoopGo mergeFn H₃ out t s ks
      | _, _ => none
    else do
      let H' ← writeProp H out k sv
      mergeLoopGo mergeFn H' out t s ks

/-- `deepMerge(target, source)` over the heap, with recursion fuel
(`none` = fuel exhausted; the frame theorem below holds for every fuel):
`const output = {...target}` allocates a fresh object cell holding
`target`'s own properties; then the loop walks `source`'s own keys. -/
def deepMergeH : Nat → Heap → Nat → Nat → Option (Heap × Nat)
  | 0, _, _, _ => none
  | fuel + 1, H, t, s => do
    let tc ← lookupCell H t
    let sc ← lookupCell H s
    let (H₁, out) := alloc H (HCell.cObj (spreadOf tc))
    let H₂ ← mergeLoopGo (deepMergeH fuel) H₁ out t s ((spreadOf sc).map Prod.fst)
    pure (H₂, out)

lemma lookupAddr_updateAddr_ne :
    ∀ (l : List (Nat × HCell)) (a b : Nat) (c : HCell), a ≠ b →
      lookupAddr (updateAddr l b c) a = lookupAddr l a := by
  intro l
  induction l with
  | nil => intro a b c _; rfl
  | cons p rest ih =>
    intro a b c hne
    obtain ⟨a', c'⟩ := p
    by_cases he : a' = b
    · subst he
      have h' : ¬(a' = a) := fun h => hne h.symm
      simp only [updateAddr, if_pos rfl, lookupAddr, if_neg h']
    · simp only [updateAddr, if_neg he, lookupAddr]
      split
      · rfl
      · exact ih a b c hne

lemma lookupCell_updateCell_ne (H : Heap) (a b : Nat) (c : HCell) (hne : a ≠ b) :
    lookupCell (updateCell H b c) a = lookupCell H a :=
  lookupAddr_updateAddr_ne H.cells a b c hne

lemma writeProp_frame {H : Heap} {out : Nat} {k : String} {v : HVal} {H' : Heap}
    (hw : writeProp H out k v = some H') :
    H'.next = H.next ∧ ∀ a, a ≠ out → lookupCell H' a = lookupCell H a := by
  unfold writeProp at hw
  split at hw
  · rename_i fields _
    simp only [Option.some.injEq] at hw
    subst hw
    exact ⟨rfl, fun a ha => lookupCell_updateCell_ne H a out _ ha⟩
  · rename_i xs _
    simp only [Option.some.injEq] at hw
    subst hw
    exact ⟨rfl, fun a ha => lookupCell_updateCell_ne H a out _ ha⟩
  · exact absurd hw (by simp)

lemma mergeLoopGo_frame (mergeFn : Heap → Nat → Nat → Option (Heap × Nat))
    (hP : ∀ H t s H' r, mergeFn H t s = some (H', r) →
      (∀ a, a < H.next → lookupCell H' a = lookupCell H a) ∧ H.next ≤ H'.next) :
    ∀ (ks : List String) (H : Heap) (out t s : Nat) (H' : Heap),
      mergeLoopGo mergeFn H out t s ks = some H' →
      (∀ a, a < H.next → a ≠ out → lookupCell H' a = lookupCell H a) ∧
        H.next ≤ H'.next := by
  intro ks
  induction ks with
  | nil =>
    intro H out t s H' h
    simp only [mergeLoopGo, Option.some.injEq] at h
    subst h
    exact ⟨fun a _ _ => rfl, le_rfl⟩
  | cons k ks ih =>
    intro H out t s H' h
    rw [mergeLoopGo] at h
    simp only [bind, Option.bind_eq_some] at h
    obtain ⟨sc, hsc, h⟩ := h
    obtain ⟨tc, htc, h⟩ := h
    split at h
    · -- both-references branch
      split at h
      · rename_i sr tr hsv htv
        simp only [bind, Option.bind_eq_some] at h
        obtain ⟨⟨H₂, child⟩, hm, h⟩ := h
        dsimp only at h
        obtain ⟨H₃, hw, h⟩ := h
        obtain ⟨hpres₁, hmono₁⟩ := hP H tr sr H₂ child hm
        obtain ⟨hwnext, hwpres⟩ := writeProp_frame hw
        obtain ⟨hpres₂, hmono₂⟩ := ih H₃ out t s H' h
        constructor
        · intro a ha hout
          rw [hpres₂ a (by omega) hout, hwpres a hout, hpres₁ a ha]
        · omega
      · exact absurd h (by simp)
    · simp only [bind, Option.bind_eq_some] at h
      obtain ⟨H₁, hw, h⟩ := h
      obtain ⟨hwnext, hwpres⟩ := writeProp_frame hw
      obtain ⟨hpres₂, hmono₂⟩ := ih H₁ out t s H' h
      constructor
      · intro a ha hout
        rw [hpres₂ a (by omega) hout, hwpres a hout]
      · omega

lemma deepMergeH_frame :
    ∀ (fuel : Nat) (H : Heap) (t s : Nat) (H' : Heap) (r : Nat),
      deepMergeH fuel H t s = some (H', r) →
      (∀ a, a < H.next → lookupCell H' a = lookupCell H a) ∧
        H.next ≤ H'.next ∧ H.next ≤ r := by
  intro fuel
  induction fuel with
  | zero => intro H t s H' r h; simp [deepMergeH] at h
  | succ fuel ih =>
    intro H t s H' r h
    rw [deepMergeH] at h
    simp only [bind, Option.bind_eq_some, alloc, pure, Option.some.injEq] at h
    obtain ⟨tc, htc, h⟩ := h
    obtain ⟨sc, hsc, h⟩ := h
    obtain ⟨H₂, hloop, hpair⟩ := h
    obtain ⟨hH', hr⟩ := Prod.mk.injEq _ _ _ _ ▸ hpair
    obtain ⟨hpres, hmono⟩ :=
      mergeLoopGo_frame (deepMergeH fuel)
        (fun Hq tq sq Hq' rq hq =>
          ⟨(ih Hq tq sq Hq' rq hq).1, (ih Hq tq sq Hq' rq hq).2.1⟩)
        ((spreadOf sc).map Prod.fst)
        ⟨H.next + 1, (H.next, HCell.cObj (spreadOf tc)) :: H.cells⟩
        H.next t s H₂ hloop
    subst hH'
    subst hr
    refine ⟨?_, by simp at hmono ⊢; omega, by omega⟩
    intro a ha
    have h1 := hpres a (by simp; omega) (by omega)
    rw [h1]
    show lookupAddr ((H.next, HCell.cObj (spreadOf tc)) :: H.cells) a = _
    rw [lookupAddr, if_neg (by omega)]
    rfl

lemma heapWF_lookup_none (H : Heap) (r : Nat) (hwf : heapWF H = true)
    (hr : H.next ≤ r) : lookupCell H r = none := by
  rw [heapWF, List.all_eq_true] at hwf
  show lookupAddr H.cells r = none
  have haux : ∀ l : List (Nat × HCell), (∀ x ∈ l, x.1 < H.next) →
      lookupAddr l r = none := by
    intro l
    induction l with
    | nil => intro _; rfl
    | cons p rest ih =>
      intro hl
      obtain ⟨a, c⟩ := p
      have ha : a < H.next := hl (a, c) (List.mem_cons_self _ _)
      rw [lookupAddr, if_neg (by omega)]
      exact ih fun x hx => hl x (List.mem_cons_of_mem _ hx)
  exact haux H.cells fun x hx => by simpa using hwf x hx

/-- C4 (confirmed): a successful `deepMerge(t, s)` over the heap changes
no pre-existing cell — every address allocated before the call reads the
same afterwards, so `t`, `s` and everything reachable from them at any
nesting level are structurally identical to their pre-call snapshots —
and the returned root is a newly constructed mapping: its address was not
allocated in the pre-call heap. (All writes of the algorithm target the
`output` cells freshly allocated by `{...target}` at each level.) -/
theorem deepMerge_no_mutation (fuel : Nat) (H H' : Heap) (t s r : Nat)
    (hwf : heapWF H = true)
    (hmerge : deepMergeH fuel H t s = some (H', r)) :
    (∀ a, a < H.next → lookupCell H' a = lookupCell H a) ∧
      lookupCell H r = none := by
  obtain ⟨hpres, -, hr⟩ := deepMergeH_frame fuel H t s H' r hmerge
  exact ⟨hpres, heapWF_lookup_none H r hwf hr⟩

/-- Witness for C4: the two-object heap `{a: 1}` (address 0) and
`{a: 9, b: "x"}` (address 1); the merge allocates address 2 and leaves
cells 0 and 1 untouched. -/
theorem deepMerge_no_mutation_witness :
    heapWF ⟨2, [(0, HCell.cObj [("a", HVal.prim (HPrim.hNum 1))]),
                (1, HCell.cObj [("a", HVal.prim (HPrim.hNum 9)),
                                ("b", HVal.prim (HPrim.hStr "x"))])]⟩ = true ∧
      deepMergeH 2
        ⟨2, [(0, HCell.cObj [("a", HVal.prim (HPrim.hNum 1))]),
             (1, HCell.cObj [("a", HVal.prim (HPrim.hNum 9)),
                             ("b", HVal.prim (HPrim.hStr "x"))])]⟩ 0 1 =
        some (⟨3, [(2, HCell.cObj [("a", HVal.prim (HPrim.hNum 9)),
                                   ("b", HVal.prim (HPrim.hStr "x"))]),
                   (0, HCell.cObj [("a", HVal.prim (HPrim.hNum 1))]),
                   (1, HCell.cObj [("a", HVal.prim (HPrim.hNum 9)),
                                   ("b", HVal.prim (HPrim.hStr "x"))])]⟩, 2) ∧
      ((∀ a, a <
          (⟨2, [(0, HCell.cObj [("a", HVal.prim (HPrim.hNum 1))]),
                (1, HCell.cObj [("a", HVal.prim (HPrim.hNum 9)),
                                ("b", HVal.prim (HPrim.hStr "x"))])]⟩ : Heap).next →
          lookupCell ⟨3, [(2, HCell.cObj [("a", HVal.prim (HPrim.hNum 9)),
                                          ("b", HVal.prim (HPrim.hStr "x"))]),
                          (0, HCell.cObj [("a", HVal.prim (HPrim.hNum 1))]),
                          (1, HCell.cObj [("a", HVal.prim (HPrim.hNum 9)),
                                          ("b", HVal.prim (HPrim.hStr "x"))])]⟩ a =
            lookupCell ⟨2, [(0, HCell.cObj [("a", HVal.prim (HPrim.hNum 1))]),
                            (1, HCell.cObj [("a", HVal.prim (HPrim.hNum 9)),
                                            ("b", HVal.prim (HPrim.hStr "x"))])]⟩ a) ∧
        lookupCell ⟨2, [(0, HCell.cObj [("a", HVal.prim (HPrim.hNum 1))]),
                        (1, HCell.cObj [("a", HVal.prim (HPrim.hNum 9)),
                                        ("b", HVal.prim (HPrim.hStr "x"))])]⟩ 2 = none) :=
  ⟨rfl, rfl,
    deepMerge_no_mutation 2
      ⟨2, [(0, HCell.cObj [("a", HVal.prim (HPrim.hNum 1))]),
           (1, HCell.cObj [("a", HVal.prim (HPrim.hNum 9)),
                           ("b", HVal.prim (HPrim.hStr "x"))])]⟩
      ⟨3, [(2, HCell.cObj [("a", HVal.prim (HPrim.hNum 9)),
                           ("b", HVal.prim (HPrim.hStr "x"))]),
           (0, HCell.cObj [("a", HVal.prim (HPrim.hNum 1))]),
           (1, HCell.cObj [("a", HVal.prim (HPrim.hNum 9)),
                           ("b", HVal.prim (HPrim.hStr "x"))])]⟩
      0 1 2 rfl rfl⟩
